import Mathlib

/-!
Verification development for the Media-Master transcoding pipeline.

This file gives a shallow embedding, in Lean 4, of the parts of the
Media-Master code base that the specification claims C1..C10 talk about:

* the per-title pipeline orchestration and its cross-stream barrier
  (`media_master/transcode.py`, `TranscodeMission`);
* the segmented (GOP-sharded) x265 encoder: its shard generation,
  resumability status file and segmentation plan
  (`media_master/video/transcode.py`);
* the durable-status writer (`media_master/util/config.py`,
  `save_config`);
* the probe metadata helpers: color-tag derivation and frame-rate
  normalization (`media_master/util/meta_data.py`);
* the output-FPS resolution (`media_master/video/transcode.py`);
* the mission planner's episode-range expansion
  (`media_master/transcode.py`, `transcode_all_mission`);
* the `resort` list primitive (`media_master/util/sort.py`).

Python lists become Lean `List`s, Python (insertion-ordered) dicts become
association lists, Python unbounded integers become `Nat`/`Int`, raised
exceptions become `Except`, and filesystem / subprocess effects become
explicit event traces.  Python's `sorted` is a stable sort; it is
embedded as `List.insertionSort`, which is also stable, hence produces
the same list.
-/

namespace MediaMaster

/-! ## Decimal-digit printing and parsing helpers

Python's f-strings render integers in decimal.  `natDigits` renders a
`Nat` in decimal as a list of characters, and `parseNatDigits` is the
inverse used to model `int(...)` on a digit string. -/

/-- The decimal digit character for `d < 10` (other inputs give `'*'`). -/
def digitChar : Nat → Char
  | 0 => '0' | 1 => '1' | 2 => '2' | 3 => '3' | 4 => '4'
  | 5 => '5' | 6 => '6' | 7 => '7' | 8 => '8' | 9 => '9'
  | _ => '*'

/-- Numeric value of a decimal digit character. -/
def digitVal (c : Char) : Nat := c.toNat - 48

/-- Worker for `natDigits`, structurally recursive on a fuel bound so
that the kernel can evaluate it on concrete inputs. -/
def natDigitsAux : Nat → Nat → List Char
  | 0, _ => []
  | fuel + 1, n =>
    if n < 10 then [digitChar n]
    else natDigitsAux fuel (n / 10) ++ [digitChar (n % 10)]

/-- Decimal rendering of a natural number, most significant digit first. -/
def natDigits (n : Nat) : List Char := natDigitsAux (n + 1) n

theorem natDigitsAux_fuel {f₁ f₂ n : Nat} (h₁ : n < f₁) (h₂ : n < f₂) :
    natDigitsAux f₁ n = natDigitsAux f₂ n := by
  induction f₁ using Nat.strong_induction_on generalizing f₂ n with
  | _ f₁ ih =>
    match f₁, f₂ with
    | g₁ + 1, g₂ + 1 =>
      simp only [natDigitsAux]
      split
      · rfl
      · next h =>
        have hdiv : n / 10 < n := Nat.div_lt_self (by omega) (by omega)
        rw [ih g₁ (by omega) (by omega : n / 10 < g₁) (by omega : n / 10 < g₂)]

/-- The recurrence that `natDigits` satisfies. -/
theorem natDigits_eq (n : Nat) :
    natDigits n =
      if n < 10 then [digitChar n]
      else natDigits (n / 10) ++ [digitChar (n % 10)] := by
  unfold natDigits
  conv_lhs => rw [natDigitsAux]
  split
  · rfl
  · next h =>
    have hdiv : n / 10 < n := Nat.div_lt_self (by omega) (by omega)
    have hx : natDigitsAux n (n / 10) = natDigitsAux (n / 10 + 1) (n / 10) :=
      natDigitsAux_fuel (by omega) (by omega)
    rw [hx]

/-- `int(...)` on a (nonempty, all-digit) string, as a fold. -/
def parseNatDigits (s : List Char) : Nat :=
  s.foldl (fun a c => a * 10 + digitVal c) 0

theorem digitVal_digitChar {d : Nat} (h : d < 10) :
    digitVal (digitChar d) = d := by
  interval_cases d <;> rfl

theorem isDigit_digitChar {d : Nat} (h : d < 10) :
    (digitChar d).isDigit = true := by
  interval_cases d <;> rfl

theorem natDigits_ne_nil (n : Nat) : natDigits n ≠ [] := by
  rw [natDigits_eq]
  split
  · simp
  · simp

theorem natDigits_isDigit (n : Nat) : ∀ c ∈ natDigits n, c.isDigit = true := by
  induction n using Nat.strong_induction_on with
  | _ n ih =>
    rw [natDigits_eq]
    split
    · next h =>
      intro c hc
      simp only [List.mem_singleton] at hc
      subst hc
      exact isDigit_digitChar h
    · next h =>
      intro c hc
      rcases List.mem_append.mp hc with h1 | h2
      · exact ih (n / 10) (Nat.div_lt_self (by omega) (by omega)) c h1
      · simp only [List.mem_singleton] at h2
        subst h2
        exact isDigit_digitChar (Nat.mod_lt _ (by omega))

theorem parseNatDigits_append (s : List Char) (c : Char) :
    parseNatDigits (s ++ [c]) = parseNatDigits s * 10 + digitVal c := by
  simp [parseNatDigits, List.foldl_append]

theorem parseNatDigits_natDigits (n : Nat) :
    parseNatDigits (natDigits n) = n := by
  induction n using Nat.strong_induction_on with
  | _ n ih =>
    rw [natDigits_eq]
    split
    · next h =>
      simp [parseNatDigits, digitVal_digitChar h]
    · next h =>
      rw [parseNatDigits_append,
        ih (n / 10) (Nat.div_lt_self (by omega) (by omega)),
        digitVal_digitChar (Nat.mod_lt _ (by omega))]
      omega

/-! ## C10: the `resort` primitive (`media_master/util/sort.py`)

```python
def resort(src, order_list):
    order_list = copy.deepcopy(order_list)
    if len(order_list) > len(src):
        raise ValueError(...)
    if any(index not in order_list for index in range(len(order_list))):
        RangeError(message=..., valid_range=...)     # constructed, not raised
    if len(order_list) < len(src):
        order_list += list(range(len(order_list), len(src)))
    return sorted(src, key=lambda x: order_list[src.index(x)])
```

The second `if`'s body only *constructs* a `RangeError` object; there is
no `raise` in front of it, so the branch has no effect.  The embedding
keeps the computed condition as an unused `let` to mirror this. -/

def resort (src orderList : List Int) : Except String (List Int) :=
  if orderList.length > src.length then
    .error "len(order_list) > len(src)"
  else
    -- the RangeError constructed here in the source is never raised
    let _rangeErrorCondition : Bool :=
      (List.range orderList.length).any (fun i => !(orderList.contains (i : Int)))
    let fullOrder : List Int :=
      orderList ++ (List.range' orderList.length (src.length - orderList.length) 1).map Int.ofNat
    .ok (src.insertionSort
      (fun x y => fullOrder.getD (src.indexOf x) 0 ≤ fullOrder.getD (src.indexOf y) 0))

/-! ## C1: the cross-stream barrier (`media_master/transcode.py`)

`TranscodeMission.transcode` runs the per-title sub-tasks.  In the
non-threaded path (`thread_bool == False`) it calls, in program order:
`_subtitle_process`, `_chapter_process`, `_attachment_process`,
`_audio_process`, `_video_stream_process`, then `_multiplex_all`.
`_video_stream_process` (lines 795-798) sets
`_state_info_dict["video_stream"]["io_complete"] = True` as its very
first action, before any video extraction or copying.  The traces below
record those statement orders as event lists. -/

inductive PipelineEv
  | subtitle
  | chapter
  | attachment
  | audioDemux
  | ioCompleteSet
  | videoIo
  | multiplex
deriving DecidableEq, Repr

/-- Event order inside `TranscodeMission._video_stream_process`: the
`io_complete` flag is assigned `True` under the lock first, and the
video extraction / copy work happens afterwards. -/
def video_stream_process_trace : List PipelineEv :=
  [.ioCompleteSet, .videoIo]

/-- Event order of the non-threaded branch of
`TranscodeMission.transcode` (the `else` of `thread_bool`), with
`_video_stream_process` inlined, followed by `_multiplex_all`. -/
def transcode_nonthreaded_trace : List PipelineEv :=
  [.subtitle, .chapter, .attachment, .audioDemux]
    ++ video_stream_process_trace ++ [.multiplex]

/-- The shared state guarded by `_thread_lock` in the threaded branch of
`TranscodeMission.transcode`: the `io_complete` flag and whether the
main thread has called `thread_audio.start()`. -/
structure BarrierState where
  ioComplete : Bool
  audioStarted : Bool
deriving DecidableEq, Repr

/-- At `transcode` entry: `io_complete` is `False` (set in `__init__`)
and the audio thread has not been started. -/
def barrierInit : BarrierState := ⟨false, false⟩

/-- Lock-atomic transitions of the threaded branch: the video-stream
thread may set `io_complete`, and the main thread's polling loop starts
the audio thread only in the branch where it has observed
`io_complete == True` while holding the lock. -/
inductive BarrierStep : BarrierState → BarrierState → Prop
  | videoSetIoComplete (s : BarrierState) :
      BarrierStep s { s with ioComplete := true }
  | mainStartAudio (s : BarrierState) (h : s.ioComplete = true) :
      BarrierStep s { s with audioStarted := true }

/-- States reachable by interleaving the two threads from `barrierInit`. -/
def BarrierReachable (s : BarrierState) : Prop :=
  Relation.ReflTransGen BarrierStep barrierInit s

/-! ## C4, C2, C3: the segmented encoder
(`media_master/video/transcode.py`, `GopX265VspipeVideoTranscoding`)

Both `_init_status_file` and `_transcode_segment` iterate

```python
for frame_index in range(first, last + 1, gop_frame_cnt):
    first_frame_index = frame_index
    last_frame_index = frame_index + gop_frame_cnt - 1
    if last_frame_index > last:
        last_frame_index = last
```

`shards first last gop` is that sequence of `(first_frame_index,
last_frame_index)` pairs. -/

/-- Length of Python `range(start, stop, step)` for a positive step. -/
def pyRangeLen (start stop step : Nat) : Nat := (stop - start + step - 1) / step

/-- `range(first, last + 1, gop)` as a list. -/
def shardStarts (first last gop : Nat) : List Nat :=
  List.range' first (pyRangeLen first (last + 1) gop) gop

/-- One loop iteration's `(first_frame_index, last_frame_index)`. -/
def shardOf (last gop a : Nat) : Nat × Nat := (a, min (a + gop - 1) last)

/-- All shards generated for the frame range `[first, last]`. -/
def shards (first last gop : Nat) : List (Nat × Nat) :=
  (shardStarts first last gop).map (shardOf last gop)

/-- `segment_identifier_template = "{first_frame_index}_{last_frame_index}"`
rendered at a shard's endpoints. -/
def segment_identifier (a b : Nat) : String :=
  ⟨natDigits a ++ '_' :: natDigits b⟩

/-- The fresh `status_dict["segment_transcode_bool_dict"]` built by
`_init_status_file` when no status file exists: every shard id maps to
`False`, in shard order (Python dicts preserve insertion order). -/
def init_status (first last gop : Nat) : List (String × Bool) :=
  (shards first last gop).map (fun p => (segment_identifier p.1 p.2, false))

/-- Python dict assignment `d[k] = true` for a key already present. -/
def setStatusTrue (st : List (String × Bool)) (k : String) : List (String × Bool) :=
  st.map (fun kv => if kv.1 = k then (kv.1, true) else kv)

/-- Observable events of `_transcode_segment`: a shard encode (the
`super().transcode()` call) and a rewrite of the status JSON file (the
`save_config(self._status_json_filepath, self._status_dict)` call). -/
inductive SegEv
  | encode (id : String)
  | saveStatus (st : List (String × Bool))
deriving DecidableEq, Repr

/-- The loop body of `_transcode_segment` over the shard list.  A shard
whose status entry is `True` is skipped (`continue`); the output file's
existence is not consulted.  A missing status entry makes the Python
dict lookup `self._status_dict[...][segment_identifier]` raise
`KeyError`.  After a successful encode the entry is set to `True` and
the whole status dict is saved. -/
def transcodeSegmentGo : List (Nat × Nat) → List (String × Bool) →
    Except String (List SegEv × List (String × Bool))
  | [], st => .ok ([], st)
  | p :: ps, st =>
    match st.lookup (segment_identifier p.1 p.2) with
    | none => .error "KeyError"
    | some true => transcodeSegmentGo ps st
    | some false =>
      let st' := setStatusTrue st (segment_identifier p.1 p.2)
      match transcodeSegmentGo ps st' with
      | .ok (evs, stF) =>
        .ok (.encode (segment_identifier p.1 p.2) :: .saveStatus st' :: evs, stF)
      | .error e => .error e

/-- `GopX265VspipeVideoTranscoding._transcode_segment`, given the frame
range and the status dict loaded by `_init_status_file`.  Returns the
event trace and the final status dict.  (The `gop_filepath_dict`
bookkeeping saved alongside the booleans is not modelled; it never
influences which shards are encoded.) -/
def transcode_segment (first last gop : Nat) (st : List (String × Bool)) :
    Except String (List SegEv × List (String × Bool)) :=
  transcodeSegmentGo (shards first last gop) st

/-- The ids actually (re-)encoded in a run. -/
def encodedIds (evs : List SegEv) : List String :=
  evs.filterMap (fun e => match e with | .encode id => some id | _ => none)

/-! `save_config` (`media_master/util/config.py`, lines 83-98) writes the
status JSON like this:

```python
with open(config_json_filepath, "w", encoding="utf-8") as file:
    file.write(json.dumps(config_dict, indent=4, ensure_ascii=False))
```

i.e. it truncates the destination file in place and writes the new
contents into it.  There is no temporary file and no rename.  (The
`os.makedirs` call for a missing parent directory touches a different
path and is not modelled.)  Filesystem effects become an `FsOp` trace
over a file-contents map. -/

inductive FsOp
  | truncate (path : String)
  | write (path : String) (data : String)
  | rename (src dst : String)
deriving DecidableEq, Repr

/-- The filesystem operations performed by `save_config(path, data)`:
`open(path, "w")` truncates `path`, then the single `write` stores the
serialized dict. -/
def save_config (path data : String) : List FsOp :=
  [.truncate path, .write path data]

/-- Whether an operation is a rename. -/
def FsOp.isRename : FsOp → Bool
  | .rename _ _ => true
  | _ => false

/-- Apply one filesystem operation to a contents map. -/
def applyFsOp (fs : List (String × String)) : FsOp → List (String × String)
  | .truncate p =>
    if (fs.lookup p).isSome
    then fs.map (fun kv => if kv.1 = p then (kv.1, "") else kv)
    else fs ++ [(p, "")]
  | .write p d =>
    fs.map (fun kv => if kv.1 = p then (kv.1, kv.2 ++ d) else kv)
  | .rename src dst =>
    match fs.lookup src with
    | none => fs
    | some d =>
      (fs.filter (fun kv => kv.1 ≠ src)).map
        (fun kv => if kv.1 = dst then (kv.1, d) else kv)
      ++ (if ((fs.filter (fun kv => kv.1 ≠ src)).lookup dst).isSome
          then [] else [(dst, d)])

/-- Apply a list of operations in order; a crash corresponds to applying
only a prefix. -/
def applyFsOps (fs : List (String × String)) (ops : List FsOp) :
    List (String × String) :=
  ops.foldl applyFsOp fs

/-! ## C5: the segmentation plan
(`SegmentedConfigX265VspipeTranscoding._init_segment_config_list`)

One flattened entry of `general_segmented_transcode_config_list`: the
per-interval encoder command template, the frame-server template path
and the frame interval.  Frame indices are `Int` because the gap-filling
arithmetic below can produce negative bounds for degenerate input. -/

structure SegCfg where
  template : String
  fsTemplate : String
  first : Int
  last : Int
deriving DecidableEq, Repr

/-- Python's `list.sort(key=lambda e: e[...][\"first_frame_index\"])` is a
stable sort by `first`; insertion sort realises the same stable sort. -/
def sortByFirst (l : List SegCfg) : List SegCfg :=
  l.insertionSort (fun a b => a.first ≤ b.first)

/-- The `for config in general_segmented_transcode_config_list:` loop.
`lastLast` is `last_last_frame_index`, initialised to the sentinel `-1`;
a config seen while the sentinel is set only records its `last`
(`continue`), a contiguous config (`lastLast + 1 == first`) records its
`last`, and otherwise a gap config carrying the default templates is
appended before recording.  Returns the appended gap configs in order
together with the final `lastLast`. -/
def gapLoop (dT dF : String) : Int → List SegCfg → List SegCfg × Int
  | lastLast, [] => ([], lastLast)
  | lastLast, c :: rest =>
    if lastLast = -1 then gapLoop dT dF c.last rest
    else if lastLast + 1 = c.first then gapLoop dT dF c.last rest
    else
      let (gaps, fin) := gapLoop dT dF c.last rest
      (⟨dT, dF, lastLast + 1, c.first - 1⟩ :: gaps, fin)

/-- `_init_segment_config_list`, flattening already done: sort the
configured intervals by `first_frame_index`; if none are configured the
whole `[first, last]` range becomes one default config; otherwise fill
the prefix before the first interval, the interior gaps, and the suffix
after the final `last_last_frame_index` with default-template configs,
append them, and sort again.  (`dT`/`dF` are
`self._transcoding_cmd_param_template` and
`self._frame_server_template_filepath`.) -/
def segmentPlan (dT dF : String) (first last : Int) (cfgs : List SegCfg) :
    List SegCfg :=
  let sorted := sortByFirst cfgs
  match sorted with
  | [] => [⟨dT, dF, first, last⟩]
  | c0 :: _ =>
    let unspecPrefix : List SegCfg :=
      if first < c0.first then [⟨dT, dF, first, c0.first - 1⟩] else []
    let gapsFin := gapLoop dT dF (-1) sorted
    let unspecSuffix : List SegCfg :=
      if gapsFin.2 < last then [⟨dT, dF, gapsFin.2 + 1, last⟩] else []
    sortByFirst (sorted ++ (unspecPrefix ++ gapsFin.1 ++ unspecSuffix))

/-- The plan-time Windows limits checked at the end of
`_init_segment_config_list` (`hash_str_length = 6`, `os.sep` one
character, `\"-000000.hevc-gop-data\"` of length 21, `\".gop\"` of length
4, `\"gop_muxer.exe\"` of length 13, `windows_path_max_length = 256`,
`windows_cmd_max_length = 8191`).  `cacheDirLen` is
`len(self._frame_server_script_cache_dir)`.  These two `RuntimeError`s
are the only exceptions raised by `_init_segment_config_list`. -/
def init_segment_config_list (dT dF : String) (first last : Int)
    (cfgs : List SegCfg) (cacheDirLen : Nat) : Except String (List SegCfg) :=
  let plan := segmentPlan dT dF first last cfgs
  let assumptivePathLength := cacheDirLen + 6 * 2 + 1 * 2 + 21
  if assumptivePathLength > 256 then
    .error "Cache dir length is too long to save gop data."
  else
    let assumptiveCmdLength :=
      plan.length * (cacheDirLen + 6 * 2 + 1 * 2 + 4 + 1) + 13 + 256 + 2
    if assumptiveCmdLength > 8191 then
      .error "Gop count is too many to pass parameter to windows CMD."
    else
      .ok plan

/-! ## C6: probe color-tag derivation (`media_master/util/meta_data.py`) -/

/-- The derived encoder color tags. -/
structure ColorSpec where
  color_matrix : String
  color_primaries : String
  transfer : String
deriving DecidableEq, Repr

/-- `get_colorspace_specification(width, height, bit_depth)`: after the
positivity `RangeError` guards, classify the picture as SD
(`W ≤ 1024 ∧ H ≤ 576`), HD (`W ≤ 2048 ∧ H ≤ 1536`) or UHD, and emit the
encoder tag triple.  `bt2020_transfer` is the constant
`encoder_transfer_smpte2084`, so the UHD transfer is always
`"smpte2084"`; `bit_depth` is validated but never used for the
selection. -/
def get_colorspace_specification (width height bit_depth : Int) :
    Except String ColorSpec :=
  if width ≤ 0 then .error "RangeError: width"
  else if height ≤ 0 then .error "RangeError: height"
  else if bit_depth ≤ 0 then .error "RangeError: bit_depth"
  else if width ≤ 1024 ∧ height ≤ 576 then
    .ok ⟨"smpte170m", "smpte170m", "smpte170m"⟩
  else if width ≤ 2048 ∧ height ≤ 1536 then
    .ok ⟨"bt709", "bt709", "bt709"⟩
  else
    .ok ⟨"bt2020nc", "bt2020", "smpte2084"⟩

/-- The probed video-track fields that
`get_proper_color_specification` reads, plus `hdr_format` (which is
present in probe output but never consulted by it).  `bit_depth` is the
already-`int()`-converted value of the `"bit_depth"` key. -/
structure VideoInfo where
  width : Int
  height : Int
  bit_depth : Option Int
  matrix_coefficients : Option String
  color_primaries : Option String
  transfer_characteristics : Option String
  hdr_format : Option String
deriving DecidableEq, Repr

/-- `constant.mediainfo_encoder_colormatrix_dict`. -/
def mediainfo_encoder_colormatrix_dict : List (String × String) :=
  [("BT.709", "bt709"), ("BT.601", "smpte170m"),
   ("BT.2020 non-constant", "bt2020nc"), ("BT.2020 constant", "bt2020c")]

/-- `constant.mediainfo_encoder_colorprim_dict`. -/
def mediainfo_encoder_colorprim_dict : List (String × String) :=
  [("BT.709", "bt709"), ("BT.601 NTSC", "smpte170m"),
   ("BT.2020", "bt2020"), ("Display P3", "p3")]

/-- `constant.mediainfo_encoder_transfer_dict`. -/
def mediainfo_encoder_transfer_dict : List (String × String) :=
  [("BT.709", "bt709"), ("BT.601", "smpte170m"),
   ("BT.2020 (10-bit)", "bt2020-10"), ("BT.2020 (12-bit)", "bt2020-12"),
   ("PQ", "smpte2084")]

/-- `constant.encoder_colormatrix_colorprim_dict`. -/
def encoder_colormatrix_colorprim_dict : List (String × String) :=
  [("bt709", "bt709"), ("smpte170m", "smpte170m"),
   ("bt2020nc", "bt2020"), ("bt2020c", "bt2020")]

/-- `constant.encoder_colormatrix_transfer_dict`. -/
def encoder_colormatrix_transfer_dict : List (String × String) :=
  [("bt709", "bt709"), ("smpte170m", "smpte170m"),
   ("bt2020nc", "smpte2084"), ("bt2020c", "smpte2084")]

/-- Python dict subscription: missing key raises `KeyError`. -/
def dictGet (d : List (String × String)) (k : String) : Except String String :=
  match d.lookup k with
  | some v => .ok v
  | none => .error "KeyError"

/-- `get_proper_color_specification(video_info_dict)`: start from the
size-derived tags (`bit_depth` defaults to 8 when the key is missing),
then, only when `matrix_coefficients` is present, override the matrix
from the probe, the primaries from the probe or from the matrix table,
and the transfer from the probe or from the matrix table (the source's
`if`/`else` on `vapoursynth_colorprim_bt2020` has identical branches, so
the transfer fallback is the matrix table either way). -/
def get_proper_color_specification (v : VideoInfo) : Except String ColorSpec := do
  let base ← get_colorspace_specification v.width v.height (v.bit_depth.getD 8)
  match v.matrix_coefficients with
  | none => .ok base
  | some m => do
    let cm ← dictGet mediainfo_encoder_colormatrix_dict m
    let cp ←
      match v.color_primaries with
      | some p => dictGet mediainfo_encoder_colorprim_dict p
      | none => dictGet encoder_colormatrix_colorprim_dict cm
    let tr ←
      match v.transfer_characteristics with
      | some t => dictGet mediainfo_encoder_transfer_dict t
      | none => dictGet encoder_colormatrix_transfer_dict cm
    .ok ⟨cm, cp, tr⟩

/-! ## C7: output-FPS resolution for CFR output
(`media_master/video/transcode.py`, `VideoTranscoding`) -/

/-- A parsed frame rate, as produced by `get_fpsnum_and_fpsden`. -/
structure FpsInfo where
  fps_num : Nat
  fps_den : Nat
deriving DecidableEq, Repr

/-- Modelled from the spec: `get_reduced_fraction` is imported from
`media_master/util/fraction.py`, which is not part of the sources here;
the spec (§4.11 StateModel) describes it as the reduced rational helper
`reduce(n, d)`, i.e. reduction to lowest terms. -/
def get_reduced_fraction (num den : Nat) : Nat × Nat :=
  (num / Nat.gcd num den, den / Nat.gcd num den)

/-- Python `str.split(\"/\")`. -/
def splitOnSlash : List Char → List (List Char)
  | [] => [[]]
  | '/' :: rest => [] :: splitOnSlash rest
  | c :: rest =>
    match splitOnSlash rest with
    | [] => [[c]]
    | g :: gs => (c :: g) :: gs

/-- Python `int(s)` on a string: succeeds exactly on nonempty all-digit
strings (sign handling does not occur in the modelled call sites). -/
def parseIntDigits (s : List Char) : Except String Nat :=
  if s ≠ [] ∧ s.all Char.isDigit then .ok (parseNatDigits s)
  else .error "invalid literal for int()"

/-- `get_fpsnum_and_fpsden(fps)` (module level of
`media_master/video/transcode.py`): split a `\"num/den\"` string and
reduce, or treat an all-digit scalar `\"N\"` as `N/1`.  A scalar
containing `'.'` goes through `float()` in the source; binary
floating-point rounding is outside this embedding's domain, so such
inputs are mapped to an error here and are not used by any theorem. -/
def get_fpsnum_and_fpsden (fps : String) : Except String FpsInfo :=
  let cs := fps.data
  if cs.contains '/' then
    match splitOnSlash cs with
    | [a, b] => do
      let n ← parseIntDigits a
      let d ← parseIntDigits b
      let r := get_reduced_fraction n d
      .ok ⟨r.1, r.2⟩
    | _ => .error "len(fps_data_list) != 2"
  else if (cs.filter (· ≠ '.')) ≠ [] ∧ (cs.filter (· ≠ '.')).all Char.isDigit then
    if cs.contains '.' then .error "float scalar fps: outside modelled domain"
    else do
      let n ← parseIntDigits cs
      let r := get_reduced_fraction n 1
      .ok ⟨r.1, r.2⟩
  else .error "unknown fps"

/-- Python `str.replace(\"fps\", \"\")`: left-to-right, non-overlapping. -/
def replaceFps : List Char → List Char
  | 'f' :: 'p' :: 's' :: rest => replaceFps rest
  | c :: rest => c :: replaceFps rest
  | [] => []

/-- `VideoTranscoding._cal_proper_output_fps(original_fps, output_fps)`:
`output_fps = int(float(output_fps.replace(\"fps\", \"\")))`, then if the
reduced source denominator is `1001` produce
`f\"{output_fps * 1000}/{1001}\"`, if it is `1` produce the bare integer,
and otherwise raise `ValueError`.  (The integer branch's value is turned
into a string by the caller's `str(...)`; it is rendered here
directly.) -/
def cal_proper_output_fps (original_fps output_fps : String) :
    Except String String := do
  let stripped := replaceFps output_fps.data
  if stripped.contains '.' then
    .error "float output fps: outside modelled domain"
  else do
    let n ← parseIntDigits stripped
    let info ← get_fpsnum_and_fpsden original_fps
    if info.fps_den = 1001 then
      .ok ⟨natDigits (n * 1000) ++ '/' :: natDigits info.fps_den⟩
    else if info.fps_den = 1 then
      .ok ⟨natDigits n⟩
    else
      .error "ValueError"

/-- Python `str.endswith(\"fps\")`. -/
def endsWithFps (s : List Char) : Bool :=
  s.reverse.take 3 == ['s', 'p', 'f']

/-- `VideoTranscoding._get_proper_output_fps(original_fps, output_fps)`:
an empty `output_fps` keeps the source fps string unchanged, a
`\"...fps\"` value is rescaled, anything else is passed through. -/
def get_proper_output_fps (original_fps output_fps : String) :
    Except String String :=
  if output_fps = "" then .ok original_fps
  else if endsWithFps output_fps.data then
    cal_proper_output_fps original_fps output_fps
  else .ok output_fps

/-- The fps value appended as `[\"--fps\", fps]` by
`VideoTranscoding._process_fps_cmd_param`, from `other_config`'s
`frame_rate_mode`, `frame_rate`, `original_frame_rate`, `output_fps` and
`output_frame_rate_mode`: VFR output passes the source `frame_rate`
through; CFR output resolves from `original_frame_rate` when the input
is VFR and from `frame_rate` when the input is CFR; other mode values
raise `ValueError`. -/
def process_fps_cmd_param (frame_rate_mode frame_rate original_frame_rate
    output_fps output_frame_rate_mode : String) : Except String String :=
  if output_frame_rate_mode = "vfr" then .ok frame_rate
  else if output_frame_rate_mode = "cfr" then
    if frame_rate_mode = "vfr" then
      get_proper_output_fps original_frame_rate output_fps
    else if frame_rate_mode = "cfr" then
      get_proper_output_fps frame_rate output_fps
    else .error "ValueError"
  else .error "ValueError"

/-! ## C8: frame-rate normalization
(`media_master/util/meta_data.py`, `get_proper_frame_rate`) -/

/-- The frame-rate-related keys of the probed video-track dict; a `none`
field models an absent key. -/
structure FrameRateDict where
  original_frame_rate : Option String
  framerate_original_num : Option String
  framerate_original_den : Option String
  frame_rate : Option String
  framerate_num : Option String
  framerate_den : Option String
deriving DecidableEq, Repr

/-- The three final fixups of `get_proper_frame_rate`. -/
def fpsFixups (s : String) : String :=
  if s = "23976/1000" then "24000/1001"
  else if s = "29970/1000" then "30000/1001"
  else if s = "59940/1000" then "60000/1001"
  else s

/-- The `return_fps` selection of `get_proper_frame_rate`, before the
fixups: for each of the original and play frame rates, prefer the
`framerate_num`/`framerate_den` pair (joined as `f\"{num}/{den}\"`) over
the scalar field; select the original rate when `original_fps` is set
and it is nonempty, else the play rate when nonempty, else `\"\"`. -/
def selectRawFps (d : FrameRateDict) (original_fps : Bool) : String :=
  let originalPlay : String :=
    match d.original_frame_rate with
    | none => ""
    | some v =>
      match d.framerate_original_num, d.framerate_original_den with
      | some n, some den => n ++ "/" ++ den
      | _, _ => v
  let play : String :=
    match d.frame_rate with
    | none => ""
    | some v =>
      match d.framerate_num, d.framerate_den with
      | some n, some den => n ++ "/" ++ den
      | _, _ => v
  if original_fps ∧ originalPlay ≠ "" then originalPlay
  else if play ≠ "" then play
  else ""

/-- `get_proper_frame_rate(video_info_dict, original_fps)`: the selected
representation with the three fixups applied. -/
def get_proper_frame_rate (d : FrameRateDict) (original_fps : Bool) : String :=
  fpsFixups (selectRawFps d original_fps)

/-- A probe dict holding a previously normalized value in its scalar
`frame_rate` field, as used to re-run the normalization on its own
output. -/
def wrapFps (s : String) : FrameRateDict :=
  ⟨none, none, none, some s, none, none⟩

/-! ## C9: episode range-shorthand expansion
(`media_master/transcode.py`, `transcode_all_mission`)

```python
episode_list_re_exp = \"(\\d+)~(\\d+)\"
re_result = re.search(episode_list_re_exp, mission_config[key])
if not re_result:
    raise ValueError(\"format of episode_list str is inaccurate.\")
first_episode = int(re_result.group(1))
last_episode = int(re_result.group(2))
step = 1
if first_episode > last_episode:
    step = -1
mission_config[key] = [e for e in range(first_episode, last_episode + step, step)]
```

For this pattern a greedy maximal digit run never needs backtracking
(shortening a `\\d+` still leaves a digit where `'~'` is required), so
`re.search` is: at the leftmost feasible position, capture the maximal
digit run, require `'~'`, and capture the following maximal digit run. -/

/-- Maximal leading digit run and the remainder. -/
def digitRun : List Char → List Char × List Char
  | [] => ([], [])
  | c :: cs =>
    if c.isDigit then
      let (r, rest) := digitRun cs
      (c :: r, rest)
    else ([], c :: cs)

/-- Try to match `(\d+)~(\d+)` at the head of the character list. -/
def matchEpisodeAt (s : List Char) : Option (List Char × List Char) :=
  let (d1, rest1) := digitRun s
  if d1 = [] then none
  else
    match rest1 with
    | '~' :: rest2 =>
      let (d2, _) := digitRun rest2
      if d2 = [] then none else some (d1, d2)
    | _ => none

/-- `re.search(\"(\\d+)~(\\d+)\", s)`: the leftmost match's two groups. -/
def searchEpisode : List Char → Option (List Char × List Char)
  | [] => none
  | c :: cs =>
    match matchEpisodeAt (c :: cs) with
    | some r => some r
    | none => searchEpisode cs

/-- Python `range(start, stop, step)` over `int`, for the two step
values `1` and `-1` used by the episode expansion. -/
def pythonRange (start stop step : Int) : List Int :=
  if step = 1 then
    (List.range (stop - start).toNat).map (fun i : Nat => start + (i : Int))
  else if step = -1 then
    (List.range (start - stop).toNat).map (fun i : Nat => start - (i : Int))
  else []

/-- The `episode_list` expansion of `transcode_all_mission`: search for
`(\d+)~(\d+)`, `int()` both groups, pick the step sign, and build the
inclusive range. -/
def expand_episode_list (s : String) : Except String (List Int) :=
  match searchEpisode s.data with
  | none => .error "format of episode_list str is inaccurate."
  | some (d1, d2) =>
    let a : Int := parseNatDigits d1
    let b : Int := parseNatDigits d2
    let step : Int := if a > b then -1 else 1
    .ok (pythonRange a (b + step) step)

/-! ## Spec-side reference definitions

For refutations, the relevant spec sentences are also rendered as
definitions; these follow the specification's words, not the source. -/

/-- From the spec's words (§4.8 Resumability): a shard is skipped
exactly when its status entry has `done == true` *and* its output file
still exists. -/
def spec_shard_skipped (done fileStillExists : Bool) : Bool :=
  done && fileStillExists

/-- From the spec's words (§4.2): for a large picture the derived
transfer is SMPTE2084 when the source has an `hdr_format` field, and
BT.709 when it is absent. -/
def spec_uhd_transfer (hdrFormatPresent : Bool) : String :=
  if hdrFormatPresent then "smpte2084" else "bt709"

/-- From the spec's words (output-FPS table): `\"Nfps\"` rescales to
`N*1000/1001` when the source denominator is 1001, else to `N/1`. -/
def spec_rescale_fps (n den : Nat) : String :=
  if den = 1001 then ⟨natDigits (n * 1000) ++ '/' :: natDigits 1001⟩
  else ⟨natDigits n ++ '/' :: natDigits 1⟩

/-! # Theorems -/

/-! ### C1: the cross-stream barrier -/

/-- C1, counterexample.  The claim states that audio processing begins
only after `video_stream.io_complete` is true in *both* execution paths,
and that `io_complete` is set only *after* the source video has been
extracted or copied.  In the non-threaded path the source calls
`_audio_process()` strictly before `_video_stream_process()`, so the
audio demux runs while `io_complete` is still `False`; and
`_video_stream_process` sets `io_complete = True` as its first action,
strictly before the video extract/copy work. -/
theorem c1_counterexample_audio_before_io_complete :
    transcode_nonthreaded_trace.indexOf .audioDemux <
        transcode_nonthreaded_trace.indexOf .ioCompleteSet
      ∧ video_stream_process_trace.indexOf .ioCompleteSet <
        video_stream_process_trace.indexOf .videoIo := by
  decide

/-- C1, amended.  In the *threaded* path the audio thread is started
only from the polling branch that has observed `io_complete == true`
under the lock, so in every reachable interleaving `audioStarted`
implies `ioComplete`; however `io_complete` is set at the very start of
`_video_stream_process`, before the video is extracted or copied, and in
the non-threaded path audio processing runs before
`_video_stream_process` is called at all. -/
theorem c1_threaded_barrier_holds (s : BarrierState)
    (hreach : BarrierReachable s) (haudio : s.audioStarted = true) :
    s.ioComplete = true
      ∧ video_stream_process_trace.indexOf .ioCompleteSet <
        video_stream_process_trace.indexOf .videoIo
      ∧ transcode_nonthreaded_trace.indexOf .audioDemux <
        transcode_nonthreaded_trace.indexOf .ioCompleteSet := by
  refine ⟨?_, by decide, by decide⟩
  unfold BarrierReachable at hreach
  revert haudio
  induction hreach with
  | refl => intro h; exact absurd h (by decide)
  | tail _ hstep ih =>
    intro h
    cases hstep with
    | videoSetIoComplete => rfl
    | mainStartAudio hio => exact hio

/-- C1, witness: the run where the video thread sets the flag and the
main thread then starts audio reaches `⟨true, true⟩`. -/
theorem c1_threaded_barrier_holds_witness :
    (⟨true, true⟩ : BarrierState).ioComplete = true
      ∧ video_stream_process_trace.indexOf .ioCompleteSet <
        video_stream_process_trace.indexOf .videoIo
      ∧ transcode_nonthreaded_trace.indexOf .audioDemux <
        transcode_nonthreaded_trace.indexOf .ioCompleteSet := by
  have h1 : BarrierStep barrierInit ⟨true, false⟩ :=
    BarrierStep.videoSetIoComplete barrierInit
  have h2 : BarrierStep ⟨true, false⟩ ⟨true, true⟩ :=
    BarrierStep.mainStartAudio ⟨true, false⟩ rfl
  exact c1_threaded_barrier_holds ⟨true, true⟩
    (Relation.ReflTransGen.tail (Relation.ReflTransGen.single h1) h2) rfl

/-! ### C10: `resort` order-list validation -/

/-- C10: for every `src` and `order_list` with
`len(order_list) <= len(src)` whose elements do not cover the index
range `0..len(order_list)-1`, `resort` returns normally (the
`RangeError` is constructed but never raised); only
`len(order_list) > len(src)` raises. -/
theorem c10_resort_validation_never_fires :
    (∀ (src orderList : List Int),
        orderList.length ≤ src.length →
        ((List.range orderList.length).any
            (fun i => !(orderList.contains (i : Int)))) = true →
        ∃ r, resort src orderList = .ok r)
      ∧ ∀ (src orderList : List Int),
          src.length < orderList.length →
          resort src orderList = .error "len(order_list) > len(src)" := by
  constructor
  · intro src orderList hlen _
    unfold resort
    rw [if_neg (by omega)]
    exact ⟨_, rfl⟩
  · intro src orderList hlen
    unfold resort
    rw [if_pos (by omega)]

/-- C10, witness: `[5, 7]` does not cover `{0, 1}` yet
`resort [10, 20, 30] [5, 7]` succeeds, and an order list longer than the
source raises. -/
theorem c10_resort_validation_never_fires_witness :
    (∃ r, resort [10, 20, 30] [5, 7] = .ok r)
      ∧ resort [10] [0, 1] = .error "len(order_list) > len(src)" :=
  ⟨c10_resort_validation_never_fires.1 [10, 20, 30] [5, 7]
      (by decide) (by decide),
    c10_resort_validation_never_fires.2 [10] [0, 1] (by decide)⟩

/-! ### C3: durability of the segmentation-status file -/

/-- Checks that every `encode` event is immediately followed by a
status-file save in which the encoded shard is marked done. -/
def savesAfterEncodes : List SegEv → Bool
  | [] => true
  | .encode id :: .saveStatus st :: rest =>
    (st.lookup id == some true) && savesAfterEncodes rest
  | .encode _ :: _ => false
  | .saveStatus _ :: rest => savesAfterEncodes rest

theorem lookup_setStatusTrue_self (st : List (String × Bool)) (k : String)
    (h : (st.lookup k).isSome = true) :
    (setStatusTrue st k).lookup k = some true := by
  induction st with
  | nil => simp [List.lookup] at h
  | cons kv rest ih =>
    obtain ⟨k', v⟩ := kv
    by_cases hk : k' = k
    · subst hk
      simp only [setStatusTrue, List.map_cons, if_pos rfl]
      rw [List.lookup]
      simp
    · have hbeq : (k == k') = false :=
        beq_eq_false_iff_ne.mpr (fun he => hk he.symm)
      simp only [setStatusTrue, List.map_cons, if_neg hk] at *
      rw [List.lookup] at h ⊢
      simp only [hbeq] at h ⊢
      exact ih h

theorem savesAfterEncodes_go (l : List (Nat × Nat)) :
    ∀ (st : List (String × Bool)) (evs : List SegEv)
      (stF : List (String × Bool)),
      transcodeSegmentGo l st = .ok (evs, stF) →
      savesAfterEncodes evs = true := by
  induction l with
  | nil =>
    intro st evs stF h
    simp only [transcodeSegmentGo] at h
    cases h
    rfl
  | cons p ps ih =>
    intro st evs stF h
    simp only [transcodeSegmentGo] at h
    cases hlook : st.lookup (segment_identifier p.1 p.2) with
    | none => rw [hlook] at h; cases h
    | some b =>
      rw [hlook] at h
      cases b with
      | true => exact ih st evs stF h
      | false =>
        cases hrec : transcodeSegmentGo ps
            (setStatusTrue st (segment_identifier p.1 p.2)) with
        | error e => rw [hrec] at h; cases h
        | ok r =>
          obtain ⟨evs', stF'⟩ := r
          rw [hrec] at h
          cases h
          have hk : ((setStatusTrue st (segment_identifier p.1 p.2)).lookup
              (segment_identifier p.1 p.2)) = some true :=
            lookup_setStatusTrue_self st _ (by rw [hlook]; rfl)
          simp only [savesAfterEncodes, hk, beq_self_eq_true, Bool.true_and]
          exact ih _ _ _ hrec

/-- C3, counterexample.  The claim states that status writes are atomic,
performed as write-to-temporary-then-rename, so that a crash during a
write never leaves a corrupt or partial status file.  `save_config`
performs no rename at all: it truncates the destination in place, so the
crash state after its first operation is an empty status file, which is
neither the old nor the new contents. -/
theorem c3_counterexample_write_not_atomic :
    (∀ op ∈ save_config "status.json" "newdata", op.isRename = false)
      ∧ applyFsOps [("status.json", "olddata")]
          ((save_config "status.json" "newdata").take 1)
          = [("status.json", "")]
      ∧ ("" : String) ≠ "olddata" ∧ ("" : String) ≠ "newdata" := by
  refine ⟨by decide, by rfl, by decide, by decide⟩

/-- C3, amended.  The per-title segmentation-status file is indeed
rewritten after every successful shard encode — in every successful
`_transcode_segment` run each `encode` event is immediately followed by
a `save_config` of a status dict marking that shard done — but the write
is a plain in-place truncate-and-write (`open(path, "w")`), not
write-to-temporary-then-rename. -/
theorem c3_status_rewritten_after_each_encode
    (first last gop : Nat) (st : List (String × Bool))
    (evs : List SegEv) (stF : List (String × Bool))
    (hrun : transcode_segment first last gop st = .ok (evs, stF)) :
    savesAfterEncodes evs = true
      ∧ ∀ path data : String,
          save_config path data = [.truncate path, .write path data]
            ∧ ∀ op ∈ save_config path data, op.isRename = false := by
  refine ⟨savesAfterEncodes_go _ _ _ _ hrun, fun path data => ⟨rfl, ?_⟩⟩
  intro op hop
  rcases List.mem_cons.mp hop with rfl | hop
  · rfl
  · rcases List.mem_cons.mp hop with rfl | hop
    · rfl
    · cases hop

/-- C3, witness: a concrete run with one pending shard produces its
encode immediately followed by the status save marking it done. -/
theorem c3_status_rewritten_after_each_encode_witness :
    savesAfterEncodes
        [.encode "1_1", .saveStatus [("0_0", true), ("1_1", true)]] = true
      ∧ ∀ path data : String,
          save_config path data = [.truncate path, .write path data]
            ∧ ∀ op ∈ save_config path data, op.isRename = false :=
  c3_status_rewritten_after_each_encode 0 1 1 [("0_0", true), ("1_1", false)]
    [.encode "1_1", .saveStatus [("0_0", true), ("1_1", true)]]
    [("0_0", true), ("1_1", true)] (by rfl)

/-! ### C6: probe color-tag derivation -/

/-- C6, counterexample.  The claim states that a picture larger than
2048×1536 gets the SMPTE2084 transfer only when the source has an
`hdr_format` field and the BT.709 transfer when `hdr_format` is absent.
For a 3840×2160 source without `hdr_format` (and without probe color
tags) the code emits `"smpte2084"`, not `"bt709"`:
`bt2020_transfer` in `get_colorspace_specification` is the constant
`encoder_transfer_smpte2084` and `hdr_format` is never consulted. -/
theorem c6_counterexample_uhd_transfer_ignores_hdr_format :
    (get_proper_color_specification
        ⟨3840, 2160, some 10, none, none, none, none⟩).map ColorSpec.transfer
        = .ok "smpte2084"
      ∧ (⟨3840, 2160, some 10, none, none, none, none⟩ : VideoInfo).hdr_format
        = none
      ∧ spec_uhd_transfer false = "bt709"
      ∧ ("smpte2084" : String) ≠ "bt709" :=
  ⟨rfl, rfl, rfl, by decide⟩

/-- C6, amended.  When the probed track has no `matrix_coefficients`
(and positive dimensions and bit depth), the derived encoder tags are a
function of the picture size alone: `W ≤ 1024 ∧ H ≤ 576` gives the
SMPTE170M (BT.601) triple, `W ≤ 2048 ∧ H ≤ 1536` gives the BT.709
triple, and any larger picture gives BT.2020nc primaries/matrix with the
SMPTE2084 transfer unconditionally — the `hdr_format` field does not
influence the result. -/
theorem c6_color_tags_from_picture_size (v : VideoInfo)
    (hm : v.matrix_coefficients = none)
    (hw : 0 < v.width) (hh : 0 < v.height)
    (hb : ∀ d, v.bit_depth = some d → 0 < d) :
    get_proper_color_specification v =
        .ok (if v.width ≤ 1024 ∧ v.height ≤ 576 then
              ⟨"smpte170m", "smpte170m", "smpte170m"⟩
            else if v.width ≤ 2048 ∧ v.height ≤ 1536 then
              ⟨"bt709", "bt709", "bt709"⟩
            else ⟨"bt2020nc", "bt2020", "smpte2084"⟩)
      ∧ ∀ h' : Option String,
          get_proper_color_specification { v with hdr_format := h' } =
            get_proper_color_specification v := by
  refine ⟨?_, fun h' => rfl⟩
  have hbd : ¬ (v.bit_depth.getD 8 ≤ 0) := by
    cases hbdd : v.bit_depth with
    | none => simp
    | some d =>
      have := hb d hbdd
      simp only [hbdd, Option.getD_some]
      omega
  unfold get_proper_color_specification get_colorspace_specification
  rw [hm]
  rw [if_neg (by omega), if_neg (by omega), if_neg hbd]
  split_ifs <;> rfl

/-- C6, witness: the amended statement at a 3840×2160 10-bit track with
no probe color tags. -/
theorem c6_color_tags_from_picture_size_witness :
    get_proper_color_specification
        ⟨3840, 2160, some 10, none, none, none, none⟩ =
        .ok (if (3840 : Int) ≤ 1024 ∧ (2160 : Int) ≤ 576 then
              ⟨"smpte170m", "smpte170m", "smpte170m"⟩
            else if (3840 : Int) ≤ 2048 ∧ (2160 : Int) ≤ 1536 then
              ⟨"bt709", "bt709", "bt709"⟩
            else ⟨"bt2020nc", "bt2020", "smpte2084"⟩)
      ∧ ∀ h' : Option String,
          get_proper_color_specification
              { (⟨3840, 2160, some 10, none, none, none, none⟩ : VideoInfo)
                with hdr_format := h' } =
            get_proper_color_specification
              ⟨3840, 2160, some 10, none, none, none, none⟩ :=
  c6_color_tags_from_picture_size _ rfl (by decide) (by decide)
    (fun d hd => by
      have h10 : some (10 : Int) = some d := hd
      have := Option.some.inj h10
      omega)

/-! ### C8: idempotence of frame-rate normalization -/

theorem fpsFixups_eq_self (t : String) (h1 : t ≠ "23976/1000")
    (h2 : t ≠ "29970/1000") (h3 : t ≠ "59940/1000") : fpsFixups t = t := by
  unfold fpsFixups
  rw [if_neg h1, if_neg h2, if_neg h3]

theorem fpsFixups_idem (t : String) :
    fpsFixups (fpsFixups t) = fpsFixups t := by
  by_cases h1 : t = "23976/1000"
  · subst h1; decide
  · by_cases h2 : t = "29970/1000"
    · subst h2; decide
    · by_cases h3 : t = "59940/1000"
      · subst h3; decide
      · rw [fpsFixups_eq_self t h1 h2 h3, fpsFixups_eq_self t h1 h2 h3]

theorem selectRawFps_wrapFps (s : String) (b : Bool) :
    selectRawFps (wrapFps s) b = if s ≠ "" then s else "" := by
  show (if b ∧ ("" : String) ≠ "" then ""
        else if s ≠ "" then s else "") = _
  rw [if_neg (by simp)]

/-- C8: re-running the probe frame-rate normalization on its own output
(fed back through the scalar `frame_rate` field) returns the output
unchanged, for every probe dict and both values of the `original_fps`
flag on either run. -/
theorem c8_fps_normalization_idempotent (d : FrameRateDict) (b b' : Bool) :
    get_proper_frame_rate (wrapFps (get_proper_frame_rate d b)) b' =
      get_proper_frame_rate d b := by
  unfold get_proper_frame_rate
  rw [selectRawFps_wrapFps]
  by_cases hs : fpsFixups (selectRawFps d b) = ""
  · rw [hs, if_neg (by simp)]
    decide
  · rw [if_pos hs, fpsFixups_idem]

/-! ### C9: episode range-shorthand expansion -/

/-- C9, counterexample.  The claim quantifies over all integers `A` and
`B`, but the pattern `(\d+)~(\d+)` matches only digit runs: for
`A = -3`, `B = 1` the leading minus sign is skipped by `re.search` and
the string `"-3~1"` expands exactly as `"3~1"` does, to `[3, 2, 1]`
rather than `[-3, -2, -1, 0, 1]`. -/
theorem c9_counterexample_negative_bound :
    expand_episode_list "-3~1" = .ok [3, 2, 1]
      ∧ ([3, 2, 1] : List Int) ≠ [-3, -2, -1, 0, 1] :=
  ⟨rfl, by decide⟩

/-! ### C2: segmented-encode resumability -/

theorem lookup_setStatusTrue_ne (st : List (String × Bool)) (k k' : String)
    (h : k' ≠ k) :
    (setStatusTrue st k).lookup k' = st.lookup k' := by
  induction st with
  | nil => rfl
  | cons kv rest ih =>
    obtain ⟨a, v⟩ := kv
    by_cases ha : a = k
    · subst ha
      have hmap : setStatusTrue ((a, v) :: rest) a
          = (a, true) :: setStatusTrue rest a := by
        simp [setStatusTrue]
      rw [hmap, List.lookup, List.lookup]
      have hbeq : (k' == a) = false := beq_eq_false_iff_ne.mpr h
      simp only [hbeq]
      exact ih
    · have hmap : setStatusTrue ((a, v) :: rest) k
          = (a, v) :: setStatusTrue rest k := by
        simp [setStatusTrue, ha]
      rw [hmap, List.lookup, List.lookup]
      cases hbeq : k' == a with
      | true => rfl
      | false => exact ih

/-- C2, counterexample.  The claim states that a shard is skipped
exactly when its status entry has `done == true` *and* its output file
still exists, so that deleting either the entry or the file re-encodes
exactly that shard.  The skip test in `_transcode_segment` reads only
the status booleans: with the single shard `0_0` marked done, the run
encodes nothing — the filesystem is not consulted at all, so this holds
in particular when the output file does not exist, where the spec
demands a re-encode (`spec_shard_skipped true false = false`).
Moreover, with the shard's status entry deleted the run raises
`KeyError` instead of re-encoding that shard. -/
theorem c2_counterexample_file_existence_not_checked :
    transcode_segment 0 0 1 [("0_0", true)] = .ok ([], [("0_0", true)])
      ∧ spec_shard_skipped true false = false
      ∧ transcode_segment 0 0 1 [] = .error "KeyError" :=
  ⟨rfl, rfl, rfl⟩

theorem digits_underscore_inj (xs : List Char) :
    ∀ (ys t t' : List Char),
      (∀ c ∈ xs, c.isDigit = true) → (∀ c ∈ ys, c.isDigit = true) →
      xs ++ '_' :: t = ys ++ '_' :: t' → xs = ys ∧ t = t' := by
  induction xs with
  | nil =>
    intro ys t t' _ hy h
    cases ys with
    | nil => simpa using h
    | cons y ys' =>
      simp only [List.nil_append, List.cons_append, List.cons.injEq] at h
      have : ('_' : Char).isDigit = true := h.1 ▸ hy y (List.mem_cons_self y ys')
      exact absurd this (by decide)
  | cons x xs' ih =>
    intro ys t t' hx hy h
    cases ys with
    | nil =>
      simp only [List.cons_append, List.nil_append, List.cons.injEq] at h
      have : ('_' : Char).isDigit = true :=
        h.1 ▸ hx x (List.mem_cons_self x xs')
      exact absurd this (by decide)
    | cons y ys' =>
      simp only [List.cons_append, List.cons.injEq] at h
      obtain ⟨hxy, htail⟩ := h
      obtain ⟨h1, h2⟩ := ih ys' t t'
        (fun c hc => hx c (List.mem_cons_of_mem _ hc))
        (fun c hc => hy c (List.mem_cons_of_mem _ hc)) htail
      exact ⟨by rw [hxy, h1], h2⟩

theorem segment_identifier_inj_left {a b a' b' : Nat}
    (h : segment_identifier a b = segment_identifier a' b') : a = a' := by
  have hdata : natDigits a ++ '_' :: natDigits b
      = natDigits a' ++ '_' :: natDigits b' := congrArg String.data h
  have := (digits_underscore_inj (natDigits a) (natDigits a')
    (natDigits b) (natDigits b') (natDigits_isDigit a)
    (natDigits_isDigit a') hdata).1
  calc a = parseNatDigits (natDigits a) := (parseNatDigits_natDigits a).symm
    _ = parseNatDigits (natDigits a') := by rw [this]
    _ = a' := parseNatDigits_natDigits a'

theorem shards_pairwise_first_lt (first last gop : Nat) :
    (shards first last gop).Pairwise (fun p q => p.1 < q.1) := by
  rcases Nat.eq_zero_or_pos gop with h0 | h0
  · subst h0
    have : pyRangeLen first (last + 1) 0 = 0 := Nat.div_zero _
    simp [shards, shardStarts, this]
  · unfold shards shardStarts
    rw [List.pairwise_map]
    have h := List.pairwise_lt_range' first
      (pyRangeLen first (last + 1) gop) gop h0
    exact h.imp (fun hlt => by
      show (shardOf last gop _).1 < (shardOf last gop _).1
      simpa [shardOf] using hlt)

theorem shards_pairwise_id_ne (first last gop : Nat) :
    (shards first last gop).Pairwise
      (fun p q => segment_identifier p.1 p.2 ≠ segment_identifier q.1 q.2) :=
  (shards_pairwise_first_lt first last gop).imp
    (fun hlt heq => absurd (segment_identifier_inj_left heq) (by omega))

theorem transcodeSegmentGo_encoded (l : List (Nat × Nat)) :
    ∀ st : List (String × Bool),
      (∀ p ∈ l, (st.lookup (segment_identifier p.1 p.2)).isSome = true) →
      l.Pairwise
        (fun p q => segment_identifier p.1 p.2 ≠ segment_identifier q.1 q.2) →
      ∃ evs stF, transcodeSegmentGo l st = .ok (evs, stF) ∧
        encodedIds evs =
          (l.filter (fun p =>
              st.lookup (segment_identifier p.1 p.2) == some false)).map
            (fun p => segment_identifier p.1 p.2) := by
  induction l with
  | nil => intro st _ _; exact ⟨[], st, rfl, rfl⟩
  | cons p ps ih =>
    intro st hkeys hpw
    have hp := hkeys p (List.mem_cons_self p ps)
    obtain ⟨hphead, hptail⟩ := List.pairwise_cons.mp hpw
    cases hlook : st.lookup (segment_identifier p.1 p.2) with
    | none => rw [hlook] at hp; cases hp
    | some b =>
      cases b with
      | true =>
        obtain ⟨evs, stF, hrun, henc⟩ :=
          ih st (fun q hq => hkeys q (List.mem_cons_of_mem _ hq)) hptail
        refine ⟨evs, stF, ?_, ?_⟩
        · simp only [transcodeSegmentGo, hlook]
          exact hrun
        · rw [henc, List.filter_cons]
          simp [hlook]
      | false =>
        have hkeys' : ∀ q ∈ ps,
            ((setStatusTrue st (segment_identifier p.1 p.2)).lookup
              (segment_identifier q.1 q.2)).isSome = true := by
          intro q hq
          rw [lookup_setStatusTrue_ne st (segment_identifier p.1 p.2)
            (segment_identifier q.1 q.2) (Ne.symm (hphead q hq))]
          exact hkeys q (List.mem_cons_of_mem _ hq)
        obtain ⟨evs, stF, hrun, henc⟩ :=
          ih (setStatusTrue st (segment_identifier p.1 p.2)) hkeys' hptail
        refine ⟨.encode (segment_identifier p.1 p.2)
            :: .saveStatus (setStatusTrue st (segment_identifier p.1 p.2))
            :: evs, stF, ?_, ?_⟩
        · simp only [transcodeSegmentGo, hlook, hrun]
        · show segment_identifier p.1 p.2 :: encodedIds evs = _
          rw [henc, List.filter_cons]
          simp only [hlook, beq_self_eq_true, if_pos]
          rw [List.map_cons]
          congr 2
          exact List.filter_congr (fun q hq => by
            rw [lookup_setStatusTrue_ne st (segment_identifier p.1 p.2)
              (segment_identifier q.1 q.2) (Ne.symm (hphead q hq))])

/-- C2, amended.  On restart, a shard is skipped (not re-encoded)
exactly when its status entry has `done == true`; the existence of its
output file is not consulted.  For any status dict defining every shard
id, `_transcode_segment` succeeds and the shards it (re-)encodes are
precisely those whose entry is `false`, in shard order — deleting the
whole status file (all entries reset to `false` by `_init_status_file`)
re-encodes everything, while deleting a completed shard's output file
alone re-encodes nothing. -/
theorem c2_skip_iff_status_done (first last gop : Nat)
    (st : List (String × Bool))
    (hkeys : ∀ p ∈ shards first last gop,
      (st.lookup (segment_identifier p.1 p.2)).isSome = true) :
    ∃ evs stF, transcode_segment first last gop st = .ok (evs, stF) ∧
      encodedIds evs =
        ((shards first last gop).filter (fun p =>
            st.lookup (segment_identifier p.1 p.2) == some false)).map
          (fun p => segment_identifier p.1 p.2) :=
  transcodeSegmentGo_encoded (shards first last gop) st hkeys
    (shards_pairwise_id_ne first last gop)

/-- C2, witness: a two-shard run with shard `0_0` pending and `1_1`
done re-encodes exactly `0_0`. -/
theorem c2_skip_iff_status_done_witness :
    ∃ evs stF,
      transcode_segment 0 1 1 [("0_0", false), ("1_1", true)] = .ok (evs, stF)
        ∧ encodedIds evs =
          ((shards 0 1 1).filter (fun p =>
              (([("0_0", false), ("1_1", true)] : List (String × Bool)).lookup
                (segment_identifier p.1 p.2)) == some false)).map
            (fun p => segment_identifier p.1 p.2) :=
  c2_skip_iff_status_done 0 1 1 [("0_0", false), ("1_1", true)] (by decide)

theorem digitRun_all_digits (ds : List Char)
    (h : ∀ c ∈ ds, c.isDigit = true) : digitRun ds = (ds, []) := by
  induction ds with
  | nil => rfl
  | cons c cs ih =>
    have hc := h c (List.mem_cons_self c cs)
    simp only [digitRun, hc, if_pos]
    rw [ih (fun x hx => h x (List.mem_cons_of_mem _ hx))]

theorem digitRun_append_tilde (ds t : List Char)
    (h : ∀ c ∈ ds, c.isDigit = true) :
    digitRun (ds ++ '~' :: t) = (ds, '~' :: t) := by
  induction ds with
  | nil => rfl
  | cons c cs ih =>
    have hc := h c (List.mem_cons_self c cs)
    simp only [List.cons_append, digitRun, hc, if_pos, List.append_eq]
    rw [ih (fun x hx => h x (List.mem_cons_of_mem _ hx))]

theorem matchEpisodeAt_digits (A B : Nat) :
    matchEpisodeAt (natDigits A ++ '~' :: natDigits B)
      = some (natDigits A, natDigits B) := by
  unfold matchEpisodeAt
  rw [digitRun_append_tilde _ _ (natDigits_isDigit A)]
  simp only [if_neg (natDigits_ne_nil A)]
  rw [digitRun_all_digits _ (natDigits_isDigit B)]
  simp only [if_neg (natDigits_ne_nil B)]

theorem searchEpisode_digits (A B : Nat) :
    searchEpisode (natDigits A ++ '~' :: natDigits B)
      = some (natDigits A, natDigits B) := by
  obtain ⟨c, cs, hA⟩ := List.exists_cons_of_ne_nil (natDigits_ne_nil A)
  have hm := matchEpisodeAt_digits A B
  conv_lhs => rw [hA, List.cons_append]
  rw [searchEpisode, ← List.cons_append, ← hA, hm]

/-- C9, amended.  For all *non-negative* integers `A` and `B` (digit
strings), expanding `episode_list = \"A~B\"` yields the inclusive list
`[A, A±1, …, B]` with step sign from `sign(B-A)`; in particular `\"3~1\"`
yields `[3,2,1]` and `\"1~3\"` yields `[1,2,3]`.  (A negative bound's
minus sign is not matched by `(\\d+)~(\\d+)`, see the counterexample.) -/
theorem c9_episode_range_expansion (A B : Nat) :
    expand_episode_list ⟨natDigits A ++ '~' :: natDigits B⟩ =
      .ok (if (A : Int) > B then
            (List.range (A - B + 1)).map (fun i : Nat => (A : Int) - (i : Int))
          else
            (List.range (B - A + 1)).map
              (fun i : Nat => (A : Int) + (i : Int))) := by
  unfold expand_episode_list
  rw [show (⟨natDigits A ++ '~' :: natDigits B⟩ : String).data
      = natDigits A ++ '~' :: natDigits B from rfl]
  rw [searchEpisode_digits A B]
  simp only [parseNatDigits_natDigits]
  by_cases hab : (A : Int) > (B : Int)
  · rw [if_pos hab, if_pos hab]
    unfold pythonRange
    rw [if_neg (by decide), if_pos rfl]
    have hn : ((A : Int) - ((B : Int) + -1)).toNat = A - B + 1 := by omega
    rw [hn]
  · rw [if_neg hab, if_neg hab]
    unfold pythonRange
    rw [if_pos rfl]
    have hn : (((B : Int) + 1) - (A : Int)).toNat = B - A + 1 := by omega
    rw [hn]

/-! ### C7: output-FPS resolution for CFR output -/

theorem replaceFps_cons_ne (c : Char) (t : List Char) (hc : c ≠ 'f') :
    replaceFps (c :: t) = c :: replaceFps t := by
  unfold replaceFps
  split
  · next heq => cases heq; exact absurd rfl hc
  · next heq =>
    injection heq with h1 h2
    subst h1
    subst h2
    rw [replaceFps.eq_def]
  · next heq => cases heq

theorem replaceFps_digits_append (ds rest : List Char)
    (h : ∀ c ∈ ds, c.isDigit = true) :
    replaceFps (ds ++ rest) = ds ++ replaceFps rest := by
  induction ds with
  | nil => rfl
  | cons c cs ih =>
    have hc : c ≠ 'f' := fun he => by
      have hd := h c (List.mem_cons_self c cs)
      rw [he] at hd
      exact absurd hd (by decide)
    rw [List.cons_append, replaceFps_cons_ne c _ hc,
      ih (fun x hx => h x (List.mem_cons_of_mem _ hx)), List.cons_append]

theorem natDigits_not_contains_dot (n : Nat) :
    (natDigits n).contains '.' = false := by
  have hmem : '.' ∉ natDigits n := fun hm => by
    have := natDigits_isDigit n '.' hm
    exact absurd this (by decide)
  simpa using hmem

theorem parseIntDigits_natDigits (n : Nat) :
    parseIntDigits (natDigits n) = .ok n := by
  unfold parseIntDigits
  rw [if_pos ⟨natDigits_ne_nil n, by
    rw [List.all_eq_true]
    exact natDigits_isDigit n⟩]
  rw [parseNatDigits_natDigits]

theorem replaceFps_strip (n : Nat) :
    replaceFps (natDigits n ++ ['f', 'p', 's']) = natDigits n := by
  rw [replaceFps_digits_append _ _ (natDigits_isDigit n)]
  rw [show replaceFps ['f', 'p', 's'] = [] from rfl, List.append_nil]

/-- C7, counterexample.  The claim states that an `\"Nfps\"` request
rescales to `N*1000/1001` when the source denominator is 1001 and to
`N/1` *otherwise*.  For a source frame rate `25/2` (reduced denominator
2) the code raises `ValueError` instead of producing `24/1`. -/
theorem c7_counterexample_other_denominator_raises :
    process_fps_cmd_param "cfr" "25/2" "25/2" "24fps" "cfr"
        = .error "ValueError"
      ∧ spec_rescale_fps 24 2 = "24/1"
      ∧ (Except.error "ValueError" : Except String String) ≠ .ok "24/1" :=
  ⟨rfl, rfl, fun h => Except.noConfusion h⟩

/-- C7, amended.  For CFR output: an empty `output_fps` passes the
source fps string through unchanged; when the input is VFR the source
*original* frame rate is the rescale basis; and an `\"Nfps\"` request
yields `\"{N*1000}/1001\"` when the reduced source denominator is 1001
and the bare `\"N\"` when it is 1 (any other denominator raises
`ValueError`, see the counterexample). -/
theorem c7_output_fps_resolution :
    (∀ fr ofr : String, process_fps_cmd_param "cfr" fr ofr "" "cfr" = .ok fr)
      ∧ (∀ fr ofr out : String,
          process_fps_cmd_param "vfr" fr ofr out "cfr" =
            get_proper_output_fps ofr out)
      ∧ (∀ (N num : Nat) (orig : String),
          get_fpsnum_and_fpsden orig = .ok ⟨num, 1001⟩ →
          cal_proper_output_fps orig ⟨natDigits N ++ ['f', 'p', 's']⟩ =
            .ok ⟨natDigits (N * 1000) ++ '/' :: natDigits 1001⟩)
      ∧ ∀ (N num : Nat) (orig : String),
          get_fpsnum_and_fpsden orig = .ok ⟨num, 1⟩ →
          cal_proper_output_fps orig ⟨natDigits N ++ ['f', 'p', 's']⟩ =
            .ok ⟨natDigits N⟩ := by
  refine ⟨?_, ?_, ?_, ?_⟩
  · intro fr ofr
    unfold process_fps_cmd_param
    rw [if_neg (by decide), if_pos rfl, if_neg (by decide), if_pos rfl]
    unfold get_proper_output_fps
    rw [if_pos rfl]
  · intro fr ofr out
    unfold process_fps_cmd_param
    rw [if_neg (by decide), if_pos rfl, if_pos rfl]
  · intro N num orig hinfo
    simp only [cal_proper_output_fps]
    rw [replaceFps_strip, natDigits_not_contains_dot]
    simp only [Bool.false_eq_true, if_false]
    rw [parseIntDigits_natDigits]
    simp only [bind, Except.bind]
    rw [hinfo]
    rfl
  · intro N num orig hinfo
    simp only [cal_proper_output_fps]
    rw [replaceFps_strip, natDigits_not_contains_dot]
    simp only [Bool.false_eq_true, if_false]
    rw [parseIntDigits_natDigits]
    simp only [bind, Except.bind]
    rw [hinfo]
    rfl

/-- C7, witness: the amended statement at `24fps` against sources
`30000/1001` and `25/1`. -/
theorem c7_output_fps_resolution_witness :
    process_fps_cmd_param "cfr" "24000/1001" "x" "" "cfr" = .ok "24000/1001"
      ∧ process_fps_cmd_param "vfr" "fr" "30000/1001" "24fps" "cfr" =
          get_proper_output_fps "30000/1001" "24fps"
      ∧ cal_proper_output_fps "30000/1001"
          ⟨natDigits 24 ++ ['f', 'p', 's']⟩ =
          .ok ⟨natDigits (24 * 1000) ++ '/' :: natDigits 1001⟩
      ∧ cal_proper_output_fps "25/1" ⟨natDigits 24 ++ ['f', 'p', 's']⟩ =
          .ok ⟨natDigits 24⟩ :=
  ⟨c7_output_fps_resolution.1 "24000/1001" "x",
    c7_output_fps_resolution.2.1 "fr" "30000/1001" "24fps",
    c7_output_fps_resolution.2.2.1 24 30000 "30000/1001" (by rfl),
    c7_output_fps_resolution.2.2.2 24 25 "25/1" (by rfl)⟩

/-! ### C4: the shard partition invariant -/

theorem pyRangeLen_eq (first last gop : Nat) (h : first ≤ last)
    (hg : 0 < gop) :
    pyRangeLen first (last + 1) gop = (last - first) / gop + 1 := by
  unfold pyRangeLen
  rw [show last + 1 - first + gop - 1 = (last - first) + gop from by omega,
    Nat.add_div_right _ hg]

theorem shards_length (first last gop : Nat) (h : first ≤ last)
    (hg : 0 < gop) :
    (shards first last gop).length = (last - first) / gop + 1 := by
  unfold shards shardStarts
  rw [List.length_map, List.length_range', pyRangeLen_eq first last gop h hg]

theorem shards_getElem (first last gop : Nat) (i : Nat)
    (hi : i < (shards first last gop).length) :
    (shards first last gop)[i]
      = (first + gop * i, min (first + gop * i + gop - 1) last) := by
  unfold shards shardStarts at hi ⊢
  rw [List.getElem_map, List.getElem_range']
  rfl

/-- C4: for every frame range `[first, last]` and positive
`gop_frame_cnt`, the generated shards are nonempty, start at `first`,
end at `last`, are contiguous (`p.2 + 1 = q.1` between neighbours),
sorted and pairwise disjoint (`p.2 < q.1` for any earlier/later pair),
each shard is the loop's gop-block truncated at the range end (so every
shard except the final one spans exactly `gop_frame_cnt` frames), their
union is exactly `[first, last]`, and the status-file keys are the
identifiers `\"{first_frame}_{last_frame}\"` of the shards' own
endpoints. -/
theorem c4_shard_partition (first last gop : Nat) (h : first ≤ last)
    (hg : 0 < gop) :
    ((shards first last gop).head?.map Prod.fst = some first
        ∧ (shards first last gop).getLast?.map Prod.snd = some last)
      ∧ List.Chain' (fun p q => p.2 + 1 = q.1) (shards first last gop)
      ∧ List.Pairwise (fun p q => p.2 < q.1) (shards first last gop)
      ∧ (∀ p ∈ shards first last gop,
          p.1 ≤ p.2 ∧ p.2 = min (p.1 + gop - 1) last)
      ∧ (∀ p ∈ (shards first last gop).dropLast, p.2 + 1 - p.1 = gop)
      ∧ (∀ x : Nat, (first ≤ x ∧ x ≤ last) ↔
          ∃ p ∈ shards first last gop, p.1 ≤ x ∧ x ≤ p.2)
      ∧ (init_status first last gop).map Prod.fst
          = (shards first last gop).map
              (fun p => segment_identifier p.1 p.2) := by
  have hlen := shards_length first last gop h hg
  obtain ⟨n, hn⟩ : ∃ n, (last - first) / gop = n := ⟨_, rfl⟩
  rw [hn] at hlen
  have hq : gop * n ≤ last - first := by
    have h1 := Nat.div_mul_le_self (last - first) gop
    rw [hn] at h1
    calc gop * n = n * gop := Nat.mul_comm _ _
      _ ≤ last - first := h1
  have hr : last - first < gop * n + gop := by
    have hdm := Nat.div_add_mod (last - first) gop
    have hm := Nat.mod_lt (last - first) hg
    rw [hn] at hdm
    omega
  have hpos : 0 < (shards first last gop).length := by rw [hlen]; omega
  refine ⟨⟨?_, ?_⟩, ?_, ?_, ?_, ?_, ?_, ?_⟩
  · rw [List.head?_eq_getElem?, List.getElem?_eq_getElem hpos,
      shards_getElem first last gop 0 hpos]
    simp
  · have hlt : (shards first last gop).length - 1
        < (shards first last gop).length := by omega
    rw [List.getLast?_eq_getElem?, List.getElem?_eq_getElem hlt,
      shards_getElem first last gop _ hlt, hlen]
    have hidx : n + 1 - 1 = n := by omega
    rw [hidx]
    have hmin : min (first + gop * n + gop - 1) last = last :=
      Nat.min_eq_right (by omega)
    rw [hmin]
    rfl
  · rw [List.chain'_iff_get]
    intro i hi
    rw [hlen] at hi
    simp only [List.get_eq_getElem]
    rw [shards_getElem first last gop i (by rw [hlen]; omega),
      shards_getElem first last gop (i + 1) (by rw [hlen]; omega)]
    have h1 : gop * (i + 1) ≤ gop * n := Nat.mul_le_mul_left gop (by omega)
    have h2 : gop * (i + 1) = gop * i + gop := by ring
    have hmin : min (first + gop * i + gop - 1) last
        = first + gop * i + gop - 1 :=
      Nat.min_eq_left (by omega)
    rw [hmin]
    omega
  · rw [List.pairwise_iff_get]
    intro i j hij
    simp only [List.get_eq_getElem]
    have hi : (i : Nat) < n + 1 := by rw [← hlen]; exact i.isLt
    have hj : (j : Nat) < n + 1 := by rw [← hlen]; exact j.isLt
    simp only [shards_getElem]
    have h1 : gop * ((i : Nat) + 1) ≤ gop * (j : Nat) :=
      Nat.mul_le_mul_left gop (by omega)
    have h2 : gop * ((i : Nat) + 1) = gop * (i : Nat) + gop := by ring
    have h3 : min (first + gop * (i : Nat) + gop - 1) last
        ≤ first + gop * (i : Nat) + gop - 1 := Nat.min_le_left _ _
    omega
  · intro p hp
    obtain ⟨i, hi, hpi⟩ := List.getElem_of_mem hp
    rw [shards_getElem first last gop i hi] at hpi
    subst hpi
    rw [hlen] at hi
    have h1 : gop * i ≤ gop * n := Nat.mul_le_mul_left gop (by omega)
    refine ⟨Nat.le_min.mpr ⟨by omega, by omega⟩, rfl⟩
  · intro p hp
    obtain ⟨i, hi, hpi⟩ := List.getElem_of_mem hp
    rw [List.getElem_dropLast] at hpi
    have hi' : i < n := by
      have hdl := List.length_dropLast (shards first last gop)
      rw [hlen] at hdl
      omega
    rw [shards_getElem first last gop i (by rw [hlen]; omega)] at hpi
    subst hpi
    have h1 : gop * (i + 1) ≤ gop * n := Nat.mul_le_mul_left gop (by omega)
    have h2 : gop * (i + 1) = gop * i + gop := by ring
    have hmin : min (first + gop * i + gop - 1) last
        = first + gop * i + gop - 1 :=
      Nat.min_eq_left (by omega)
    rw [hmin]
    omega
  · intro x
    constructor
    · rintro ⟨hx1, hx2⟩
      obtain ⟨i, hidef⟩ : ∃ i, (x - first) / gop = i := ⟨_, rfl⟩
      have hile : i ≤ n := by
        have : (x - first) / gop ≤ (last - first) / gop :=
          Nat.div_le_div_right (by omega : x - first ≤ last - first)
        rw [hidef, hn] at this
        exact this
      have h1 : gop * i ≤ x - first := by
        have h1' := Nat.div_mul_le_self (x - first) gop
        rw [hidef] at h1'
        calc gop * i = i * gop := Nat.mul_comm _ _
          _ ≤ x - first := h1'
      have h2 : x - first < gop * i + gop := by
        have hdm := Nat.div_add_mod (x - first) gop
        have hm := Nat.mod_lt (x - first) hg
        rw [hidef] at hdm
        omega
      have hib : i < (shards first last gop).length := by rw [hlen]; omega
      have hmem : (first + gop * i, min (first + gop * i + gop - 1) last)
          ∈ shards first last gop := by
        rw [← shards_getElem first last gop i hib]
        exact List.getElem_mem hib
      exact ⟨_, hmem, by omega, Nat.le_min.mpr ⟨by omega, hx2⟩⟩
    · rintro ⟨p, hp, hx1, hx2⟩
      obtain ⟨i, hi, hpi⟩ := List.getElem_of_mem hp
      rw [shards_getElem first last gop i hi] at hpi
      subst hpi
      simp only at hx1 hx2
      have h3 : min (first + gop * i + gop - 1) last ≤ last :=
        Nat.min_le_right _ _
      omega
  · simp [init_status]

/-- C4, witness: the partition invariant at `first = 0`, `last = 5`,
`gop_frame_cnt = 2` (shards `(0,1) (2,3) (4,5)`). -/
theorem c4_shard_partition_witness :
    ((shards 0 5 2).head?.map Prod.fst = some 0
        ∧ (shards 0 5 2).getLast?.map Prod.snd = some 5)
      ∧ List.Chain' (fun p q => p.2 + 1 = q.1) (shards 0 5 2)
      ∧ List.Pairwise (fun p q => p.2 < q.1) (shards 0 5 2)
      ∧ (∀ p ∈ shards 0 5 2, p.1 ≤ p.2 ∧ p.2 = min (p.1 + 2 - 1) 5)
      ∧ (∀ p ∈ (shards 0 5 2).dropLast, p.2 + 1 - p.1 = 2)
      ∧ (∀ x : Nat, (0 ≤ x ∧ x ≤ 5) ↔
          ∃ p ∈ shards 0 5 2, p.1 ≤ x ∧ x ≤ p.2)
      ∧ (init_status 0 5 2).map Prod.fst
          = (shards 0 5 2).map (fun p => segment_identifier p.1 p.2) :=
  c4_shard_partition 0 5 2 (by decide) (by decide)

/-! ### C5: the segmentation plan -/

/-- The canonical interleaved plan for a sorted, disjoint interval list:
a default-template gap before each interval where needed, and a final
default interval up to `last`.  Used to characterise `segmentPlan`. -/
def specPlanRef (dT dF : String) (last : Int) : Int → List SegCfg → List SegCfg
  | first, [] => if first ≤ last then [⟨dT, dF, first, last⟩] else []
  | first, c :: rest =>
    (if first < c.first then [⟨dT, dF, first, c.first - 1⟩] else [])
      ++ c :: specPlanRef dT dF last (c.last + 1) rest

theorem specPlanRef_props (dT dF : String) (last : Int) :
    ∀ (l : List SegCfg) (first : Int),
      (∀ c ∈ l, first ≤ c.first ∧ c.first ≤ c.last ∧ c.last ≤ last) →
      l.Pairwise (fun a b => a.first ≤ b.first) →
      l.Pairwise (fun a b => a.last < b.first ∨ b.last < a.first) →
      (specPlanRef dT dF last first l).Pairwise
          (fun p q => p.first < q.first)
        ∧ List.Chain' (fun p q => p.last + 1 = q.first)
            (specPlanRef dT dF last first l)
        ∧ (∀ p ∈ specPlanRef dT dF last first l,
            first ≤ p.first ∧ p.first ≤ p.last ∧ p.last ≤ last)
        ∧ (∀ p ∈ specPlanRef dT dF last first l,
            p ∈ l ∨ (p.template = dT ∧ p.fsTemplate = dF))
        ∧ (first ≤ last →
            (specPlanRef dT dF last first l).head?.map SegCfg.first
                = some first
              ∧ (specPlanRef dT dF last first l).getLast?.map SegCfg.last
                = some last)
        ∧ (last < first → specPlanRef dT dF last first l = []) := by
  intro l
  induction l with
  | nil =>
    intro first _ _ _
    by_cases hle : first ≤ last
    · simp only [specPlanRef, if_pos hle]
      refine ⟨List.pairwise_singleton _ _, List.chain'_singleton _,
        ?_, ?_, fun _ => ⟨rfl, rfl⟩, fun hlt => absurd hle (by omega)⟩
      · intro p hp
        rw [List.mem_singleton] at hp
        subst hp
        exact ⟨le_refl _, hle, le_refl _⟩
      · intro p hp
        rw [List.mem_singleton] at hp
        subst hp
        exact Or.inr ⟨rfl, rfl⟩
    · simp only [specPlanRef, if_neg hle]
      exact ⟨List.Pairwise.nil, List.chain'_nil, by simp, by simp,
        fun hle' => absurd hle' hle, fun _ => by simp⟩
  | cons c rest ih =>
    intro first hall hsort hdis
    have hc := hall c (List.mem_cons_self c rest)
    obtain ⟨h1, h2, h3⟩ := hc
    obtain ⟨hsorthead, hsorttail⟩ := List.pairwise_cons.mp hsort
    obtain ⟨hdishead, hdistail⟩ := List.pairwise_cons.mp hdis
    have hall' : ∀ r ∈ rest,
        c.last + 1 ≤ r.first ∧ r.first ≤ r.last ∧ r.last ≤ last := by
      intro r hr
      have h4 := hall r (List.mem_cons_of_mem _ hr)
      have h5 := hsorthead r hr
      rcases hdishead r hr with hlt | hlt
      · exact ⟨by omega, h4.2.1, h4.2.2⟩
      · exact absurd hlt (by omega)
    obtain ⟨ihA, ihB, ihC, ihD, ihE, ihF⟩ :=
      ih (c.last + 1) hall' hsorttail hdistail
    have hrecne : ∀ r0 rtail,
        specPlanRef dT dF last (c.last + 1) rest = r0 :: rtail →
        c.last + 1 ≤ last ∧ r0.first = c.last + 1 := by
      intro r0 rtail hsh
      by_cases hcl : c.last + 1 ≤ last
      · have hh := (ihE hcl).1
        rw [hsh] at hh
        simp only [List.head?_cons, Option.map_some'] at hh
        exact ⟨hcl, Option.some.inj hh⟩
      · have := ihF (by omega)
        rw [hsh] at this
        cases this
    have hchaincr : List.Chain' (fun p q => p.last + 1 = q.first)
        (c :: specPlanRef dT dF last (c.last + 1) rest) := by
      cases hsh : specPlanRef dT dF last (c.last + 1) rest with
      | nil => exact List.chain'_singleton c
      | cons r0 rtail =>
        rw [List.chain'_cons]
        obtain ⟨_, hr0⟩ := hrecne r0 rtail hsh
        refine ⟨hr0.symm, ?_⟩
        rw [← hsh]
        exact ihB
    have hgl : first ≤ last →
        (c :: specPlanRef dT dF last (c.last + 1) rest).getLast?.map
          SegCfg.last = some last := by
      intro _
      cases hsh : specPlanRef dT dF last (c.last + 1) rest with
      | nil =>
        have hcl : ¬ c.last + 1 ≤ last := by
          intro hcl
          have hh := (ihE hcl).1
          rw [hsh] at hh
          cases hh
        have hceq : c.last = last := by omega
        simp [List.getLast?, hceq]
      | cons r0 rtail =>
        obtain ⟨hcl, _⟩ := hrecne r0 rtail hsh
        rw [List.getLast?_cons_cons, ← hsh]
        exact (ihE hcl).2
    by_cases hgap : first < c.first
    · simp only [specPlanRef, if_pos hgap, List.cons_append, List.nil_append]
      refine ⟨?_, ?_, ?_, ?_, ?_, ?_⟩
      · rw [List.pairwise_cons]
        constructor
        · intro p hp
          rcases List.mem_cons.mp hp with rfl | hp
          · exact hgap
          · have := ihC p hp
            show first < p.first
            omega
        · rw [List.pairwise_cons]
          refine ⟨fun p hp => ?_, ihA⟩
          have := ihC p hp
          show c.first < p.first
          omega
      · rw [List.chain'_cons]
        exact ⟨by show c.first - 1 + 1 = c.first; omega, hchaincr⟩
      · intro p hp
        rcases List.mem_cons.mp hp with rfl | hp
        · exact ⟨le_refl _, by show first ≤ c.first - 1; omega,
            by show c.first - 1 ≤ last; omega⟩
        · rcases List.mem_cons.mp hp with rfl | hp
          · exact ⟨h1, h2, h3⟩
          · have := ihC p hp
            exact ⟨by omega, this.2.1, this.2.2⟩
      · intro p hp
        rcases List.mem_cons.mp hp with rfl | hp
        · exact Or.inr ⟨rfl, rfl⟩
        · rcases List.mem_cons.mp hp with rfl | hp
          · exact Or.inl (List.mem_cons_self _ _)
          · rcases ihD p hp with hin | hdef
            · exact Or.inl (List.mem_cons_of_mem _ hin)
            · exact Or.inr hdef
      · intro hfl
        refine ⟨rfl, ?_⟩
        rw [List.getLast?_cons_cons]
        exact hgl hfl
      · intro hlt
        exact absurd (le_trans h1 (le_trans h2 h3)) (by omega)
    · have heq : c.first = first := by omega
      simp only [specPlanRef, if_neg hgap, List.nil_append]
      refine ⟨?_, hchaincr, ?_, ?_, ?_, ?_⟩
      · rw [List.pairwise_cons]
        refine ⟨fun p hp => ?_, ihA⟩
        have := ihC p hp
        show c.first < p.first
        omega
      · intro p hp
        rcases List.mem_cons.mp hp with rfl | hp
        · exact ⟨h1, h2, h3⟩
        · have := ihC p hp
          exact ⟨by omega, this.2.1, this.2.2⟩
      · intro p hp
        rcases List.mem_cons.mp hp with rfl | hp
        · exact Or.inl (List.mem_cons_self _ _)
        · rcases ihD p hp with hin | hdef
          · exact Or.inl (List.mem_cons_of_mem _ hin)
          · exact Or.inr hdef
      · intro hfl
        refine ⟨?_, hgl hfl⟩
        simp [heq]
      · intro hlt
        exact absurd (le_trans h1 (le_trans h2 h3)) (by omega)

theorem gapLoop_perm (dT dF : String) (last : Int) :
    ∀ (l : List SegCfg) (L : Int), 0 ≤ L →
      (∀ c ∈ l, L < c.first ∧ c.first ≤ c.last ∧ c.last ≤ last) →
      l.Pairwise (fun a b => a.first ≤ b.first) →
      l.Pairwise (fun a b => a.last < b.first ∨ b.last < a.first) →
      (l ++ (gapLoop dT dF L l).1
          ++ (if (gapLoop dT dF L l).2 < last
              then [SegCfg.mk dT dF ((gapLoop dT dF L l).2 + 1) last]
              else [])).Perm
        (specPlanRef dT dF last (L + 1) l) := by
  intro l
  induction l with
  | nil =>
    intro L hL _ _ _
    have hgl : gapLoop dT dF L [] = ([], L) := rfl
    simp only [hgl, List.nil_append]
    by_cases hlt : L < last
    · rw [if_pos hlt]
      simp only [specPlanRef, if_pos (by omega : L + 1 ≤ last)]
      exact List.Perm.refl _
    · rw [if_neg hlt]
      simp only [specPlanRef, if_neg (by omega : ¬ L + 1 ≤ last)]
      exact List.Perm.refl _
  | cons c rest ih =>
    intro L hL hall hsort hdis
    have hc := hall c (List.mem_cons_self _ _)
    obtain ⟨h1, h2, h3⟩ := hc
    obtain ⟨hsorthead, hsorttail⟩ := List.pairwise_cons.mp hsort
    obtain ⟨hdishead, hdistail⟩ := List.pairwise_cons.mp hdis
    have hall' : ∀ r ∈ rest,
        c.last < r.first ∧ r.first ≤ r.last ∧ r.last ≤ last := by
      intro r hr
      have h4 := hall r (List.mem_cons_of_mem _ hr)
      have h5 := hsorthead r hr
      rcases hdishead r hr with hlt | hlt
      · exact ⟨hlt, h4.2.1, h4.2.2⟩
      · exact absurd hlt (by omega)
    have ihx := ih c.last (by omega) hall' hsorttail hdistail
    have hLne : ¬ (L = -1) := by omega
    by_cases hcontig : L + 1 = c.first
    · have hgl : gapLoop dT dF L (c :: rest) = gapLoop dT dF c.last rest := by
        simp [gapLoop, hLne, hcontig]
      rw [hgl]
      simp only [specPlanRef, if_neg (by omega : ¬ L + 1 < c.first),
        List.nil_append]
      exact List.Perm.cons c ihx
    · have hgl1 : (gapLoop dT dF L (c :: rest)).1
          = ⟨dT, dF, L + 1, c.first - 1⟩ :: (gapLoop dT dF c.last rest).1 := by
        simp [gapLoop, hLne, hcontig]
      have hgl2 : (gapLoop dT dF L (c :: rest)).2
          = (gapLoop dT dF c.last rest).2 := by
        simp [gapLoop, hLne, hcontig]
      rw [hgl1, hgl2]
      have hrhs : specPlanRef dT dF last (L + 1) (c :: rest)
          = ⟨dT, dF, L + 1, c.first - 1⟩
              :: c :: specPlanRef dT dF last (c.last + 1) rest := by
        simp [specPlanRef, if_pos (show L + 1 < c.first by omega)]
      rw [hrhs]
      generalize hsuf : (if (gapLoop dT dF c.last rest).2 < last
          then [SegCfg.mk dT dF ((gapLoop dT dF c.last rest).2 + 1) last]
          else []) = suf at ihx ⊢
      generalize hgaps : (gapLoop dT dF c.last rest).1 = gaps at ihx ⊢
      have h1p : (((c :: rest)
            ++ (⟨dT, dF, L + 1, c.first - 1⟩ :: gaps)) ++ suf).Perm
          (⟨dT, dF, L + 1, c.first - 1⟩
            :: ((c :: rest) ++ (gaps ++ suf))) := by
        rw [List.append_assoc]
        exact List.perm_middle
      refine h1p.trans (List.Perm.cons _ ?_)
      show ((c :: rest) ++ (gaps ++ suf)).Perm
        (c :: specPlanRef dT dF last (c.last + 1) rest)
      refine List.Perm.cons _ ?_
      show (rest ++ (gaps ++ suf)).Perm
        (specPlanRef dT dF last (c.last + 1) rest)
      rw [← List.append_assoc]
      exact ihx

/-- C5, counterexample.  The claim states that any two overlapping input
intervals cause an error at plan-build time.  There is no overlap check:
with the overlapping intervals `[0,10]` and `[5,8]` over the range
`[0,10]`, `_init_segment_config_list` returns a normal plan that even
contains the inverted gap interval `[11,4]` (and a spurious `[9,10]`),
so the plan is not contiguous either; its only exceptions are the
Windows path-length guards. -/
theorem c5_counterexample_overlap_not_an_error :
    init_segment_config_list "d" "f" 0 10
        [⟨"t1", "g1", 0, 10⟩, ⟨"t2", "g2", 5, 8⟩] 30 =
      .ok [⟨"t1", "g1", 0, 10⟩, ⟨"t2", "g2", 5, 8⟩,
        ⟨"d", "f", 9, 10⟩, ⟨"d", "f", 11, 4⟩]
      ∧ (⟨"d", "f", 11, 4⟩ : SegCfg)
          ∈ segmentPlan "d" "f" 0 10 [⟨"t1", "g1", 0, 10⟩, ⟨"t2", "g2", 5, 8⟩]
      ∧ (11 : Int) > 4 :=
  ⟨rfl, by decide, by decide⟩

/-- C5, amended.  Configured frame intervals are sorted by
`first_frame_index`, and every gap — the prefix before the first
interval, interior gaps, and the suffix after the last — is filled with
an interval carrying the default templates, so *when the input intervals
are pairwise non-overlapping and within bounds* the final plan is
strictly sorted and contiguous over `[first, last]`: every input
interval appears in the plan, every plan entry is an input or a
default-template filler, neighbouring entries satisfy
`p.last + 1 = q.first`, the plan starts at `first` and ends at `last`.
Overlapping inputs are not detected (see the counterexample). -/
theorem c5_segmentation_plan (dT dF : String) (first last : Int)
    (cfgs : List SegCfg) (h0 : 0 ≤ first) (hfl : first ≤ last)
    (hin : ∀ c ∈ cfgs, first ≤ c.first ∧ c.first ≤ c.last ∧ c.last ≤ last)
    (hdisj : cfgs.Pairwise (fun a b => a.last < b.first ∨ b.last < a.first)) :
    (segmentPlan dT dF first last cfgs).Pairwise
        (fun p q => p.first < q.first)
      ∧ List.Chain' (fun p q => p.last + 1 = q.first)
          (segmentPlan dT dF first last cfgs)
      ∧ (segmentPlan dT dF first last cfgs).head?.map SegCfg.first
          = some first
      ∧ (segmentPlan dT dF first last cfgs).getLast?.map SegCfg.last
          = some last
      ∧ (∀ c ∈ cfgs, c ∈ segmentPlan dT dF first last cfgs)
      ∧ ∀ p ∈ segmentPlan dT dF first last cfgs,
          p ∈ cfgs ∨ (p.template = dT ∧ p.fsTemplate = dF) := by
  haveI instTot : IsTotal SegCfg (fun a b => a.first ≤ b.first) :=
    ⟨fun a b => le_total a.first b.first⟩
  haveI instTrans : IsTrans SegCfg (fun a b => a.first ≤ b.first) :=
    ⟨fun a b c hab hbc => le_trans hab hbc⟩
  have hsperm : (sortByFirst cfgs).Perm cfgs := List.perm_insertionSort _ _
  have hssorted : (sortByFirst cfgs).Pairwise (fun a b => a.first ≤ b.first) :=
    List.sorted_insertionSort _ _
  have hsin : ∀ c ∈ sortByFirst cfgs,
      first ≤ c.first ∧ c.first ≤ c.last ∧ c.last ≤ last :=
    fun c hc => hin c (hsperm.mem_iff.mp hc)
  have hsdisj : (sortByFirst cfgs).Pairwise
      (fun a b => a.last < b.first ∨ b.last < a.first) :=
    (List.Perm.pairwise_iff (fun h => h.symm) hsperm).mpr hdisj
  cases hs : sortByFirst cfgs with
  | nil =>
    have hcfgs : cfgs = [] := by
      have hx := hsperm
      rw [hs] at hx
      exact (hx.symm).eq_nil
    have hplan : segmentPlan dT dF first last cfgs = [⟨dT, dF, first, last⟩] := by
      simp only [segmentPlan, hs]
    rw [hplan, hcfgs]
    refine ⟨List.pairwise_singleton _ _, List.chain'_singleton _, rfl, rfl,
      by simp, ?_⟩
    intro p hp
    rw [List.mem_singleton] at hp
    subst hp
    exact Or.inr ⟨rfl, rfl⟩
  | cons c0 rest =>
    rw [hs] at hssorted hsin hsdisj
    have hsperm' : (c0 :: rest).Perm cfgs := by rw [← hs]; exact hsperm
    have hc0 := hsin c0 (List.mem_cons_self _ _)
    obtain ⟨hc1, hc2, hc3⟩ := hc0
    obtain ⟨hsorthead, hsorttail⟩ := List.pairwise_cons.mp hssorted
    obtain ⟨hdishead, hdistail⟩ := List.pairwise_cons.mp hsdisj
    have hall' : ∀ r ∈ rest,
        c0.last < r.first ∧ r.first ≤ r.last ∧ r.last ≤ last := by
      intro r hr
      have h4 := hsin r (List.mem_cons_of_mem _ hr)
      have h5 := hsorthead r hr
      rcases hdishead r hr with hlt | hlt
      · exact ⟨hlt, h4.2.1, h4.2.2⟩
      · exact absurd hlt (by omega)
    obtain ⟨hTpw, hTch, hTbnd, hTorig, hTends, _⟩ :=
      specPlanRef_props dT dF last (c0 :: rest) first hsin hssorted hsdisj
    obtain ⟨hThead, hTlast⟩ := hTends hfl
    have hg0 : gapLoop dT dF (-1) (c0 :: rest) = gapLoop dT dF c0.last rest := by
      simp [gapLoop]
    have hperm1 := gapLoop_perm dT dF last rest c0.last (by omega)
      hall' hsorttail hdistail
    have hplan : segmentPlan dT dF first last cfgs
        = sortByFirst ((c0 :: rest) ++
            ((if first < c0.first then [SegCfg.mk dT dF first (c0.first - 1)] else [])
              ++ (gapLoop dT dF c0.last rest).1
              ++ (if (gapLoop dT dF c0.last rest).2 < last
                  then [SegCfg.mk dT dF ((gapLoop dT dF c0.last rest).2 + 1)
                    last]
                  else []))) := by
      simp only [segmentPlan, hs, hg0]
    have hpermM : ((c0 :: rest) ++
        ((if first < c0.first then [SegCfg.mk dT dF first (c0.first - 1)] else [])
          ++ (gapLoop dT dF c0.last rest).1
          ++ (if (gapLoop dT dF c0.last rest).2 < last
              then [SegCfg.mk dT dF ((gapLoop dT dF c0.last rest).2 + 1) last]
              else []))).Perm
        (specPlanRef dT dF last first (c0 :: rest)) := by
      generalize hsuf : (if (gapLoop dT dF c0.last rest).2 < last
          then [SegCfg.mk dT dF ((gapLoop dT dF c0.last rest).2 + 1) last]
          else []) = suf at hperm1 ⊢
      generalize hgaps : (gapLoop dT dF c0.last rest).1 = gaps at hperm1 ⊢
      by_cases hpre : first < c0.first
      · rw [if_pos hpre]
        have hrhs : specPlanRef dT dF last first (c0 :: rest)
            = ⟨dT, dF, first, c0.first - 1⟩
                :: c0 :: specPlanRef dT dF last (c0.last + 1) rest := by
          simp [specPlanRef, if_pos hpre]
        rw [hrhs]
        have h1p : (((c0 :: rest)
              ++ (⟨dT, dF, first, c0.first - 1⟩ :: (gaps ++ suf)))).Perm
            (⟨dT, dF, first, c0.first - 1⟩
              :: ((c0 :: rest) ++ (gaps ++ suf))) := List.perm_middle
        refine List.Perm.trans ?_ (h1p.trans (List.Perm.cons _ ?_))
        · show (((c0 :: rest) ++ ((⟨dT, dF, first, c0.first - 1⟩ :: gaps)
              ++ suf))).Perm _
          rw [List.cons_append, ← List.cons_append]
          exact List.Perm.refl _
        · show ((c0 :: rest) ++ (gaps ++ suf)).Perm
            (c0 :: specPlanRef dT dF last (c0.last + 1) rest)
          refine List.Perm.cons _ ?_
          show (rest ++ (gaps ++ suf)).Perm
            (specPlanRef dT dF last (c0.last + 1) rest)
          rw [← List.append_assoc]
          exact hperm1
      · rw [if_neg hpre]
        have hrhs : specPlanRef dT dF last first (c0 :: rest)
            = c0 :: specPlanRef dT dF last (c0.last + 1) rest := by
          simp [specPlanRef, if_neg hpre]
        rw [hrhs]
        show ((c0 :: rest) ++ (([] ++ gaps) ++ suf)).Perm _
        rw [List.nil_append]
        refine List.Perm.cons _ ?_
        show (rest ++ (gaps ++ suf)).Perm
          (specPlanRef dT dF last (c0.last + 1) rest)
        rw [← List.append_assoc]
        exact hperm1
    have hplanperm : (segmentPlan dT dF first last cfgs).Perm
        (specPlanRef dT dF last first (c0 :: rest)) := by
      rw [hplan]
      exact (List.perm_insertionSort _ _).trans hpermM
    have hplansorted : (segmentPlan dT dF first last cfgs).Pairwise
        (fun a b => a.first ≤ b.first) := by
      rw [hplan]
      exact List.sorted_insertionSort _ _
    have hTne : (specPlanRef dT dF last first (c0 :: rest)).Pairwise
        (fun p q => p.first ≠ q.first) :=
      hTpw.imp (fun h => ne_of_lt h)
    have hplanne : (segmentPlan dT dF first last cfgs).Pairwise
        (fun p q => p.first ≠ q.first) :=
      (List.Perm.pairwise_iff (fun h => h.symm) hplanperm).mpr hTne
    have hplanlt : (segmentPlan dT dF first last cfgs).Pairwise
        (fun p q => p.first < q.first) :=
      (hplansorted.and hplanne).imp (fun h => lt_of_le_of_ne h.1 h.2)
    haveI : IsAntisymm SegCfg (fun p q => p.first < q.first) :=
      ⟨fun a b hab hba => absurd (lt_trans hab hba) (lt_irrefl _)⟩
    have hplaneq : segmentPlan dT dF first last cfgs
        = specPlanRef dT dF last first (c0 :: rest) :=
      List.eq_of_perm_of_sorted hplanperm hplanlt hTpw
    rw [hplaneq]
    refine ⟨hTpw, hTch, hThead, hTlast, ?_, ?_⟩
    · intro c hc
      have h1 : c ∈ c0 :: rest := hsperm'.mem_iff.mpr hc
      have h2 : c ∈ (c0 :: rest) ++
          ((if first < c0.first then [SegCfg.mk dT dF first (c0.first - 1)] else [])
            ++ (gapLoop dT dF c0.last rest).1
            ++ (if (gapLoop dT dF c0.last rest).2 < last
                then [SegCfg.mk dT dF ((gapLoop dT dF c0.last rest).2 + 1)
                  last]
                else [])) := List.mem_append_left _ h1
      exact hpermM.mem_iff.mp h2
    · intro p hp
      rcases hTorig p hp with hin' | hdef
      · exact Or.inl (hsperm'.mem_iff.mp hin')
      · exact Or.inr hdef

/-- C5, witness: the amended statement for two disjoint in-range
intervals `[3,5]` and `[10,12]` over `[0,20]`. -/
theorem c5_segmentation_plan_witness :
    (segmentPlan "d" "f" 0 20
        [⟨"t1", "g1", 3, 5⟩, ⟨"t2", "g2", 10, 12⟩]).Pairwise
        (fun p q => p.first < q.first)
      ∧ List.Chain' (fun p q => p.last + 1 = q.first)
          (segmentPlan "d" "f" 0 20
            [⟨"t1", "g1", 3, 5⟩, ⟨"t2", "g2", 10, 12⟩])
      ∧ (segmentPlan "d" "f" 0 20
          [⟨"t1", "g1", 3, 5⟩, ⟨"t2", "g2", 10, 12⟩]).head?.map SegCfg.first
          = some 0
      ∧ (segmentPlan "d" "f" 0 20
          [⟨"t1", "g1", 3, 5⟩, ⟨"t2", "g2", 10, 12⟩]).getLast?.map SegCfg.last
          = some 20
      ∧ (∀ c ∈ [(⟨"t1", "g1", 3, 5⟩ : SegCfg), ⟨"t2", "g2", 10, 12⟩],
          c ∈ segmentPlan "d" "f" 0 20
            [⟨"t1", "g1", 3, 5⟩, ⟨"t2", "g2", 10, 12⟩])
      ∧ ∀ p ∈ segmentPlan "d" "f" 0 20
          [⟨"t1", "g1", 3, 5⟩, ⟨"t2", "g2", 10, 12⟩],
          p ∈ [(⟨"t1", "g1", 3, 5⟩ : SegCfg), ⟨"t2", "g2", 10, 12⟩]
            ∨ (p.template = "d" ∧ p.fsTemplate = "f") :=
  c5_segmentation_plan "d" "f" 0 20 [⟨"t1", "g1", 3, 5⟩, ⟨"t2", "g2", 10, 12⟩]
    (by decide) (by decide) (by decide) (by decide)

end MediaMaster